import Mathlib

/-!
The `file put` command of gnoic: a shallow embedding of `app/filePut.go`

The Go source is translated function by function:

* `PreRunEFilePut`   : flag validation and defaulting (lines 44-58);
* `FilePut`          : one upload session on one target (lines 123-220);
* the goroutine body of `RunEFilePut` (lines 71-91), as a small-step
  interleaving semantics over the shared variables;
* the reporting half of `RunEFilePut` (lines 96-121).

Go values are modelled as follows.  A `uint64` or `uint32` is a `Nat` with the
wrap-around written out where the source computes.  A `[]byte` is a
`List Byte`.  An `error` is an `Option Err` (`none` is `nil`).  The operating
system, the gRPC stream and the standard library are an explicit environment:
the `k`-th call of `f.Read` and of `stream.Send` answers what the oracle says
for index `k`, so that quantifying over the oracle covers every pattern of
short reads and of failures.  The hash functions are parameters that satisfy
the streaming contract of `hash.Hash`.

The `make` of line 182 panics when the length is above the allocation limit
of the platform, which is below `2^63` because the length has to fit `int`.

Not modelled: logging and the deferred `stream.CloseSend()` and `cancel()`.  The chunk loop has no bound of its own, so `FilePut` takes a number
of iterations as fuel and reports `running` when they are used up.
-/

namespace Gnoic

/-! ## Go values -/

/-- One byte of a Go `[]byte`. -/
abbrev Byte := Fin 256

/-- A non-nil Go `error`.  `io.EOF` is a distinguished value that the source
compares against; every other error is known by its text only. -/
inductive Err where
  | eof
  | other (msg : String)
  deriving DecidableEq, Repr

/-- The `uint64` modulus. -/
def uint64Size : Nat := 2 ^ 64

/-- The `uint32` modulus. -/
def uint32Size : Nat := 2 ^ 32

/-- The fields of `a.Config` that `filePut.go` reads or writes. -/
structure Config where
  FilePutFile : String
  FilePutRemoteFile : String
  /-- A `uint64`. -/
  FilePutWriteSize : Nat
  /-- A `uint32`. -/
  FilePutPermissions : Nat
  FilePutHashMethod : String
  deriving DecidableEq, Repr

/-! ## `PreRunEFilePut` -/

/-- The function `PreRunEFilePut` (lines 44-58).  `ToUpper` is `strings.ToUpper` of the Go
standard library, taken as a parameter.  The result is the returned error, or
the configuration as the function leaves it. -/
def PreRunEFilePut (ToUpper : String → String) (cfg : Config) : Except Err Config :=
  if cfg.FilePutFile = "" then
    .error (.other "missing --file flag")
  else
    let cfg := if cfg.FilePutWriteSize = 0 then { cfg with FilePutWriteSize := 64 } else cfg
    let cfg := { cfg with FilePutHashMethod := ToUpper cfg.FilePutHashMethod }
    let cfg :=
      if cfg.FilePutHashMethod = "MD5" ∨ cfg.FilePutHashMethod = "SHA256"
          ∨ cfg.FilePutHashMethod = "SHA512" then cfg
      else { cfg with FilePutHashMethod := "MD5" }
    .ok cfg

/-- The length of the read buffer of line 182, `make([]byte,
a.Config.FilePutWriteSize*1000)`: a `uint64` product, which wraps. -/
def bufLen (cfg : Config) : Nat := (cfg.FilePutWriteSize * 1000) % uint64Size

/-! ## `strconv`, at base 8 -/

/-- The digit `digits[d]` of `strconv`, for `d < 10`. -/
def octDigit (d : Nat) : Char := Char.ofNat (48 + d)

/-- The loop of `strconv.formatBits` for a power-of-two base, at base 8:
`for u >= b { a[i] = digits[u&m]; u >>= shift }; a[i] = digits[u]`.  The digits
are produced last first; `fuel` bounds the iterations (a `uint64` has at most
22 octal digits). -/
def formatBits8 : Nat → Nat → List Char → List Char
  | 0, _, acc => acc
  | fuel + 1, u, acc =>
    if u ≥ 8 then formatBits8 fuel (u / 8) (octDigit (u % 8) :: acc)
    else octDigit u :: acc

/-- The call `strconv.FormatUint(u, 8)` for a `uint64` `u`. -/
def FormatUint8 (u : Nat) : String := ⟨formatBits8 64 u []⟩

/-- The value `strconv.ParseUint` gives one character, `none` where it reports
a syntax error: `'0'..'9'` then letters of either case from 10 on. -/
def digitVal (c : Char) : Option Nat :=
  if 48 ≤ c.toNat ∧ c.toNat ≤ 57 then some (c.toNat - 48)
  else if 97 ≤ c.toNat ∧ c.toNat ≤ 122 then some (c.toNat - 97 + 10)
  else if 65 ≤ c.toNat ∧ c.toNat ≤ 90 then some (c.toNat - 65 + 10)
  else none

/-- The error of `strconv` for text that is no number. -/
def syntaxError : Err := .other "strconv.ParseInt: invalid syntax"

/-- The error of `strconv` for a number out of range. -/
def rangeError : Err := .other "strconv.ParseInt: value out of range"

/-- The digit loop of `strconv.ParseUint(s, 8, 64)`, from the running value
`n`.  `cutoff` is `maxUint64/8 + 1` and `maxVal` is `1<<64 - 1`; the two
`uint64` operations wrap as in Go. -/
def parseUintLoop8 (n : Nat) : List Char → Except Err Nat
  | [] => .ok n
  | c :: cs =>
    match digitVal c with
    | none => .error syntaxError
    | some d =>
      if d ≥ 8 then .error syntaxError
      else if n ≥ (uint64Size - 1) / 8 + 1 then .error rangeError
      else
        let n8 := (n * 8) % uint64Size
        let n1 := (n8 + d) % uint64Size
        if n1 < n8 ∨ n1 > uint64Size - 1 then .error rangeError
        else parseUintLoop8 n1 cs

/-- The call `strconv.ParseUint(s, 8, 64)`, on the characters of `s`. -/
def ParseUint8 (s : List Char) : Except Err Nat :=
  if s = [] then .error syntaxError else parseUintLoop8 0 s

/-- The call `strconv.ParseInt(s, 8, 64)`: an optional sign, the unsigned digits, then
the `int64` range check against `cutoff = 1 << 63`.  A range error of
`ParseUint` ends as a range error here as well. -/
def ParseInt8 (s : String) : Except Err Int :=
  match s.data with
  | [] => .error syntaxError
  | c :: cs =>
    let neg := decide (c = '-')
    let rest := if c = '+' ∨ c = '-' then cs else c :: cs
    match ParseUint8 rest with
    | .error e => .error e
    | .ok un =>
      if ¬ neg ∧ un ≥ 2 ^ 63 then .error rangeError
      else if neg ∧ un > 2 ^ 63 then .error rangeError
      else .ok (if neg then - (un : Int) else (un : Int))

/-- Lines 147-155 of `FilePut`: the permission that goes into the open
message, for the configured value and `fi.Mode().Perm()`.  An error is the
early `return "", err` of line 152. -/
def resolvePermissions (configured perm : Nat) : Except Err Nat :=
  if configured = 0 then
    let s := "0" ++ FormatUint8 perm
    match ParseInt8 s with
    | .error e => .error e
    | .ok doperm => .ok (doperm % (uint32Size : Int)).toNat
  else .ok configured

/-! ## `hash.Hash` -/

/-- One implementation of Go's `hash.Hash`, as `FilePut` uses it: `new` is the
state `New()` returns, `write` is `Write` and `sum` is `Sum(nil)`.  The field
`streaming` is the contract of the interface: writing data piece by piece
gives the sum of writing it at once. -/
structure Hash where
  State : Type
  new : State
  write : State → List Byte → State
  sum : State → List Byte
  streaming : ∀ chunks : List (List Byte),
    sum (chunks.foldl write new) = sum (write new chunks.flatten)

/-- The hash function an implementation computes: the sum of one write of the
whole input to a fresh state. -/
def Hash.digest (H : Hash) (data : List Byte) : List Byte := H.sum (H.write H.new data)

/-- A non-nil value of interface type `hash.Hash`: an implementation and its
running state. -/
structure HashObj where
  impl : Hash
  st : impl.State

/-- The call `h.Write(p)`. -/
def HashObj.Write (h : HashObj) (p : List Byte) : HashObj := ⟨h.impl, h.impl.write h.st p⟩

/-- The call `h.Sum(nil)`. -/
def HashObj.Sum (h : HashObj) : List Byte := h.impl.sum h.st

/-- The standard library and gNOI packages `filePut.go` calls: `md5.New`,
`sha256.New`, `sha512.New`, `filepath.Base` and `strings.ToUpper`. -/
structure Lib where
  md5 : Hash
  sha256 : Hash
  sha512 : Hash
  Base : String → String
  ToUpper : String → String

/-- The hash implementation the `switch` of lines 172-179 selects for a method
name, `none` where no case matches. -/
def hashAlg (lib : Lib) (method : String) : Option Hash :=
  if method = "MD5" then some lib.md5
  else if method = "SHA256" then some lib.sha256
  else if method = "SHA512" then some lib.sha512
  else none

/-- Lines 171-179: `var h hash.Hash` and the `switch`; `none` is the nil
interface the variable keeps when no case matches. -/
def initHash (lib : Lib) (method : String) : Option HashObj :=
  (hashAlg lib method).map fun H => ⟨H, H.new⟩

/-- The enumeration `types.HashType_HashMethod` of gNOI. -/
inductive HashMethod where
  | UNSPECIFIED
  | SHA256
  | SHA512
  | MD5
  deriving DecidableEq, Repr

/-- The lookup `types.HashType_HashMethod_value[name]` of line 208: the map of
the gNOI `types` package from enumeration names to values, a missing key giving
the zero value. -/
def HashType_HashMethod_value (name : String) : HashMethod :=
  if name = "UNSPECIFIED" then .UNSPECIFIED
  else if name = "SHA256" then .SHA256
  else if name = "SHA512" then .SHA512
  else if name = "MD5" then .MD5
  else .UNSPECIFIED

/-! ## `FilePut` -/

/-- The three variants of `file.PutRequest` that `FilePut` sends. -/
inductive PutRequest where
  | Open (remoteFile : String) (permissions : Nat)
  | Contents (b : List Byte)
  | Hash (method : HashMethod) (hash : List Byte)
  deriving DecidableEq, Repr

/-- What `FilePut` uses of the `os.FileInfo` of the local path: `fi.IsDir()`
and `fi.Mode().Perm()`. -/
structure FileInfo where
  isDir : Bool
  perm : Nat
  deriving DecidableEq, Repr

/-- The result of one `f.Read(b)`: the bytes `b[:n]` and the error. -/
structure ReadResult where
  data : List Byte
  err : Option Err
  deriving DecidableEq, Repr

/-- The world of one session: the results of `os.Stat`, `os.Open`,
`fileClient.Put` and `stream.CloseAndRecv`, and two oracles.  `reads k n` is
what the `k`-th call of `f.Read` returns into a buffer of `n` bytes, and
`sends k` what the `k`-th call of `stream.Send` returns (both counted from 0).
The field `read_le` is the contract of `io.Reader`: a read returns no more
bytes than the buffer holds.  `maxAlloc` is the largest length for which
`make([]byte, n)` succeeds on the platform; above it `make` panics
(`makeslice: len out of range`), and `maxAlloc_lt` says that a length that
does not fit `int` is above it. -/
structure Env where
  stat : Except Err FileInfo
  openErr : Option Err
  putErr : Option Err
  reads : Nat → Nat → ReadResult
  sends : Nat → Option Err
  closeAndRecv : Option Err
  maxAlloc : Nat
  read_le : ∀ k n, (reads k n).data.length ≤ n
  maxAlloc_lt : maxAlloc < 2 ^ 63

/-- The `i`-th read of the chunk loop: lines 182-183, a fresh buffer of
`bufLen cfg` bytes and `f.Read(b)`. -/
def readAt (env : Env) (cfg : Config) (i : Nat) : ReadResult := env.reads i (bufLen cfg)

/-- How a run of `FilePut` stands: it returned `(name, err)`, it panicked (a
`make` above the allocation limit, or a method call on the nil `hash.Hash`), or the chunk loop is still iterating when
the fuel is used up. -/
inductive Outcome where
  | returned (name : String) (err : Option Err)
  | panicked
  | running
  deriving DecidableEq, Repr

/-- A run of `FilePut`: the configuration as the run leaves it, the messages
handed to `stream.Send` in order (the failing one included), and the outcome. -/
structure Run where
  cfg : Config
  sent : List PutRequest
  out : Outcome
  deriving DecidableEq, Repr

/-- Lines 203-219, after the loop: build and send the hash message, then
`CloseAndRecv`. -/
def sendHash (env : Env) (cfg : Config) (h : Option HashObj) (sent : List PutRequest) : Run :=
  match h with
  | none => ⟨cfg, sent, .panicked⟩
  | some o =>
    let reqHash := PutRequest.Hash (HashType_HashMethod_value cfg.FilePutHashMethod) o.Sum
    match env.sends sent.length with
    | some e => ⟨cfg, sent ++ [reqHash], .returned "" (some e)⟩
    | none => ⟨cfg, sent ++ [reqHash], .returned cfg.FilePutRemoteFile env.closeAndRecv⟩

/-- The chunk loop of lines 181-202, entered for the `i`-th read with the hash
`h` and the messages `sent` so far; one unit of fuel per iteration.  Each
iteration first allocates the buffer (line 182), which panics above the
allocation limit. -/
def chunkLoop (env : Env) (cfg : Config) :
    Nat → Nat → Option HashObj → List PutRequest → Run
  | 0, _, _, sent => ⟨cfg, sent, .running⟩
  | fuel + 1, i, h, sent =>
    if bufLen cfg > env.maxAlloc then
      ⟨cfg, sent, .panicked⟩
    else
    let r := readAt env cfg i
    if r.err ≠ none ∧ r.err ≠ some .eof then
      ⟨cfg, sent, .returned "" r.err⟩
    else if r.err = some .eof ∨ r.data.length = 0 then
      sendHash env cfg h sent
    else
      match h with
      | none => ⟨cfg, sent, .panicked⟩
      | some o =>
        let reqContents := PutRequest.Contents r.data
        match env.sends sent.length with
        | some e => ⟨cfg, sent ++ [reqContents], .returned "" (some e)⟩
        | none => chunkLoop env cfg fuel (i + 1) (some (o.Write r.data)) (sent ++ [reqContents])

/-- The function `FilePut` (lines 123-220) on one target, with `fuel`
iterations allowed to its chunk loop. -/
def FilePut (lib : Lib) (env : Env) (cfg : Config) (fuel : Nat) : Run :=
  match env.stat with
  | .error e => ⟨cfg, [], .returned "" (some e)⟩
  | .ok fi =>
    if fi.isDir then
      ⟨cfg, [], .returned "" (some (.other "file put direcotries is not supported... yet"))⟩
    else
      match env.openErr with
      | some e => ⟨cfg, [], .returned "" (some e)⟩
      | none =>
        match env.putErr with
        | some e => ⟨cfg, [], .returned "" (some e)⟩
        | none =>
          let cfg :=
            if cfg.FilePutRemoteFile = "" then
              { cfg with FilePutRemoteFile := lib.Base cfg.FilePutFile }
            else cfg
          match resolvePermissions cfg.FilePutPermissions fi.perm with
          | .error e => ⟨cfg, [], .returned "" (some e)⟩
          | .ok perm =>
            let cfg := { cfg with FilePutPermissions := perm }
            let req := PutRequest.Open cfg.FilePutRemoteFile cfg.FilePutPermissions
            match env.sends 0 with
            | some e => ⟨cfg, [req], .returned "" (some e)⟩
            | none => chunkLoop env cfg fuel 0 (initHash lib cfg.FilePutHashMethod) [req]

/-- The configuration lines 144-155 leave when the permission resolves to
`perm`: the remote name defaulted to the base name of the local path, and the
permission. -/
def sessionCfg (lib : Lib) (cfg : Config) (perm : Nat) : Config :=
  { (if cfg.FilePutRemoteFile = "" then
      { cfg with FilePutRemoteFile := lib.Base cfg.FilePutFile }
    else cfg) with FilePutPermissions := perm }

/-- The payloads of the contents messages of a message sequence, in order. -/
def contentsOf (sent : List PutRequest) : List (List Byte) :=
  sent.filterMap fun m => match m with
    | .Contents b => some b
    | _ => none

/-- The payloads of `k` reads of the chunk loop from the `i`-th on. -/
def chunksFrom (env : Env) (cfg : Config) : Nat → Nat → List (List Byte)
  | _, 0 => []
  | i, k + 1 => (readAt env cfg i).data :: chunksFrom env cfg (i + 1) k

/-- A read after which the loop goes on: nil error and at least one byte. -/
def ReadOK (r : ReadResult) : Prop := r.err = none ∧ r.data ≠ []

/-- A read at which the loop breaks (line 187): `io.EOF`, or no byte and a nil
error. -/
def EndOfData (r : ReadResult) : Prop := r.err = some .eof ∨ (r.err = none ∧ r.data = [])

/-- The hash object after the writes of line 190 for the given chunks. -/
def writeAll (o : HashObj) (chunks : List (List Byte)) : HashObj := chunks.foldl HashObj.Write o

/-- The ways the chunk loop, entered at read `i` with a non-nil hash `o` and
the messages `sent`, can stand after at most `fuel` iterations.  In each, `k`
reads succeeded with data and their contents messages were sent. -/
inductive LoopResult (env : Env) (cfg : Config) (fuel i : Nat) (o : HashObj)
    (sent : List PutRequest) (R : Run) : Prop where
  /-- The fuel is used up. -/
  | running
      (hok : ∀ j, j < fuel → ReadOK (readAt env cfg (i + j)))
      (hsends : ∀ j, j < fuel → env.sends (sent.length + j) = none)
      (hsent : R.sent = sent ++ (chunksFrom env cfg i fuel).map .Contents)
      (hout : R.out = .running)
  /-- The allocation of the buffer panicked (line 182). -/
  | allocPanic (k : Nat)
      (hok : ∀ j, j < k → ReadOK (readAt env cfg (i + j)))
      (hsends : ∀ j, j < k → env.sends (sent.length + j) = none)
      (hlimit : bufLen cfg > env.maxAlloc)
      (hsent : R.sent = sent ++ (chunksFrom env cfg i k).map .Contents)
      (hout : R.out = .panicked)
  /-- A read failed (line 185). -/
  | readErr (k : Nat) (e : Err)
      (hok : ∀ j, j < k → ReadOK (readAt env cfg (i + j)))
      (hsends : ∀ j, j < k → env.sends (sent.length + j) = none)
      (herr : (readAt env cfg (i + k)).err = some e) (hne : e ≠ .eof)
      (hsent : R.sent = sent ++ (chunksFrom env cfg i k).map .Contents)
      (hout : R.out = .returned "" (some e))
  /-- The send of a contents message failed (line 200). -/
  | sendErr (k : Nat) (e : Err)
      (hok : ∀ j, j < k + 1 → ReadOK (readAt env cfg (i + j)))
      (hsends : ∀ j, j < k → env.sends (sent.length + j) = none)
      (hfail : env.sends (sent.length + k) = some e)
      (hsent : R.sent = sent ++ (chunksFrom env cfg i (k + 1)).map .Contents)
      (hout : R.out = .returned "" (some e))
  /-- The loop ended and the send of the hash message failed (line 216). -/
  | hashErr (k : Nat) (e : Err)
      (hok : ∀ j, j < k → ReadOK (readAt env cfg (i + j)))
      (hsends : ∀ j, j < k → env.sends (sent.length + j) = none)
      (hend : EndOfData (readAt env cfg (i + k)))
      (hfail : env.sends (sent.length + k) = some e)
      (hsent : R.sent = sent ++ (chunksFrom env cfg i k).map .Contents ++
        [.Hash (HashType_HashMethod_value cfg.FilePutHashMethod)
          (writeAll o (chunksFrom env cfg i k)).Sum])
      (hout : R.out = .returned "" (some e))
  /-- The loop ended and the hash message was sent (line 219). -/
  | finished (k : Nat)
      (hok : ∀ j, j < k → ReadOK (readAt env cfg (i + j)))
      (hsends : ∀ j, j < k + 1 → env.sends (sent.length + j) = none)
      (hend : EndOfData (readAt env cfg (i + k)))
      (hsent : R.sent = sent ++ (chunksFrom env cfg i k).map .Contents ++
        [.Hash (HashType_HashMethod_value cfg.FilePutHashMethod)
          (writeAll o (chunksFrom env cfg i k)).Sum])
      (hout : R.out = .returned cfg.FilePutRemoteFile env.closeAndRecv)

/-- The offset in the file at which the `i`-th read starts: the number of bytes
the reads before it returned. -/
def readPos (reads : Nat → ReadResult) : Nat → Nat
  | 0 => 0
  | i + 1 => readPos reads i + (reads i).data.length

/-- The reads of a regular file of content `F` through a buffer of `c` bytes:
while data remains a read returns, with a nil error, between 1 and
`min c remaining` of the bytes at the current offset; once the file is
exhausted it returns `(0, io.EOF)`. -/
def ReadsFile (F : List Byte) (c : Nat) (reads : Nat → ReadResult) : Prop :=
  ∀ i,
    if readPos reads i < F.length then
      (reads i).err = none ∧ 1 ≤ (reads i).data.length ∧ (reads i).data.length ≤ c ∧
        (reads i).data = (F.drop (readPos reads i)).take (reads i).data.length
    else reads i = ⟨[], some .eof⟩

/-! ## `RunEFilePut` -/

/-- What `RunEFilePut` uses of a `*Target`: `t.Config.Address`. -/
structure Target where
  Address : String
  deriving DecidableEq, Repr

/-- The struct `filePutResponse` of lines 24-28. -/
structure filePutResponse where
  targetName : String
  file : String
  err : Option Err
  deriving DecidableEq, Repr

/-- What the goroutine body calls: `a.CreateGrpcClient(ctx, t, ...)` and
`a.FilePut(ctx, t)`, each by its result for the target. -/
structure World where
  CreateGrpcClient : Target → Option Err
  FilePut : Target → String × Option Err

/-- The program points of the goroutine body of lines 71-91, before each access
to shared state: the assignment of line 77, the test of line 78, the send of
lines 79-82, the call and send of lines 85-90, and the end. -/
inductive PC where
  | create
  | check
  | respondErr
  | filePut
  | done
  deriving DecidableEq, Repr

/-- One goroutine: its argument `t` and where it stands. -/
structure Goroutine where
  t : Target
  pc : PC
  deriving DecidableEq, Repr

/-- The state the goroutines of `RunEFilePut` share: the variable `err`
declared at line 61 (assigned at line 77, read at lines 78 and 81), the
goroutines, and the responses written to `responseChan` in order. -/
structure Shared where
  err : Option Err
  gs : List Goroutine
  responseChan : List filePutResponse
  deriving DecidableEq, Repr

/-- The state after the `go` statements of lines 70-92.  `err` is nil there:
line 62 returned otherwise. -/
def spawn (targets : List Target) : Shared :=
  ⟨none, targets.map fun t => ⟨t, .create⟩, []⟩

/-- One step of goroutine number `g`.  Line 85 declares a new `err` with `:=`,
local to the goroutine, so the response of lines 86-90 carries the value
`FilePut` returned; lines 77-81 use the shared `err`. -/
def step (w : World) (s : Shared) (g : Nat) : Shared :=
  match s.gs[g]? with
  | none => s
  | some gr =>
    match gr.pc with
    | .create =>
      { s with err := w.CreateGrpcClient gr.t, gs := s.gs.set g ⟨gr.t, .check⟩ }
    | .check =>
      { s with gs := s.gs.set g ⟨gr.t, if s.err ≠ none then .respondErr else .filePut⟩ }
    | .respondErr =>
      { s with
        responseChan := s.responseChan ++ [⟨gr.t.Address, "", s.err⟩],
        gs := s.gs.set g ⟨gr.t, .done⟩ }
    | .filePut =>
      { s with
        responseChan := s.responseChan ++ [⟨gr.t.Address, (w.FilePut gr.t).1, (w.FilePut gr.t).2⟩],
        gs := s.gs.set g ⟨gr.t, .done⟩ }
    | .done => s

/-- The state after the goroutines took steps in the order of the schedule. -/
def runSchedule (w : World) (s : Shared) (schedule : List Nat) : Shared :=
  schedule.foldl (step w) s

/-- The condition `a.wg.Wait()` of line 93 waits for: every goroutine ran its
deferred `a.wg.Done()`. -/
def allDone (s : Shared) : Bool := s.gs.all fun gr => gr.pc = .done

/-- What lines 96-121 compute. -/
structure Report where
  errs : List Err
  result : List filePutResponse
  ret : Option Err
  deriving DecidableEq, Repr

/-- The loop of lines 98-105 over the closed channel, from the slices `errs`
and `result` so far. -/
def partitionResponses :
    List filePutResponse → List Err × List filePutResponse → List Err × List filePutResponse
  | [], acc => acc
  | rsp :: rest, (errs, result) =>
    match rsp.err with
    | some e => partitionResponses rest (errs ++ [e], result)
    | none => partitionResponses rest (errs, result ++ [rsp])

/-- Lines 96-121 of `RunEFilePut`: the partition and the verdict. -/
def reportResults (responses : List filePutResponse) : Report :=
  let p := partitionResponses responses ([], [])
  { errs := p.1
    result := p.2
    ret :=
      if p.1.length > 0 then
        some (.other ("there was " ++ toString p.1.length ++ " errors"))
      else none }

/-- The target names of the responses of goroutines that are done. -/
def doneNames (gs : List Goroutine) : List String :=
  (gs.filter fun gr => gr.pc = .done).map fun gr => gr.t.Address

/-- The number of steps a goroutine at a program point still takes. -/
def PC.stepsLeft : PC → Nat
  | .create => 3
  | .check => 2
  | .respondErr => 1
  | .filePut => 1
  | .done => 0

/-- What every state of the goroutines satisfies: the goroutines are those of
the targets, in order, and the responses written so far are those of the
goroutines that are done, one each, under their own target's address. -/
def Inv (targets : List Target) (s : Shared) : Prop :=
  s.gs.map (fun x => x.t) = targets ∧
    List.Perm (s.responseChan.map fun r => r.targetName) (doneNames s.gs)

/-- The steps left to goroutine number `i`, `none` when there is no such
goroutine. -/
def stepsLeftAt (s : Shared) (i : Nat) : Option Nat := (s.gs[i]?).map fun x => x.pc.stepsLeft

/-- The function `RunEFilePut` (lines 60-121) under one schedule of its goroutines.  The
outer `none` says the schedule ends before every goroutine is done, so that
`a.wg.Wait()` has not returned. -/
def RunEFilePut (w : World) (getTargets : Except Err (List Target)) (schedule : List Nat) :
    Option (Option Err) :=
  match getTargets with
  | .error e => some (some e)
  | .ok targets =>
    let s := runSchedule w (spawn targets) schedule
    if allDone s then some (reportResults s.responseChan).ret else none

/-! ## Concrete instances, for evaluation -/

/-- A toy `hash.Hash`: the state is a byte sum started at `seed`. -/
def toyHash (seed : Nat) : Hash where
  State := Nat
  new := seed
  write := fun s p => s + (p.map Fin.val).sum
  sum := fun s => [Fin.ofNat (s % 256)]
  streaming := by
    intro chunks
    have key : ∀ (cs : List (List Byte)) (s : Nat),
        cs.foldl (fun s p => s + (p.map Fin.val).sum) s = s + (cs.flatten.map Fin.val).sum := by
      intro cs
      induction cs with
      | nil => intro s; simp
      | cons c cs ih => intro s; simp [ih, Nat.add_assoc]
    simp [key]

/-- Upper-casing of the ASCII letters, which is what `strings.ToUpper` does on
ASCII text. -/
def asciiUpper (s : String) : String := ⟨s.data.map Char.toUpper⟩

/-- A library for evaluation: three toy hashes, the identity for
`filepath.Base`, and `asciiUpper` for `strings.ToUpper`. -/
def toyLib : Lib := ⟨toyHash 1, toyHash 2, toyHash 3, id, asciiUpper⟩

/-- The reads of a five-byte file `1 2 3 4 5` as a short read of two bytes, a
read of three bytes, then end of file (into a buffer of at least three
bytes). -/
def demoReads : Nat → Nat → ReadResult
  | 0, n => ⟨[1, 2].take n, none⟩
  | 1, n => ⟨[3, 4, 5].take n, none⟩
  | _, _ => ⟨[], some .eof⟩

/-- A session on a regular file of mode 0640 in which every call succeeds, on
a platform that allocates up to `2^48` bytes. -/
def demoEnv : Env where
  stat := .ok ⟨false, 0o640⟩
  openErr := none
  putErr := none
  reads := demoReads
  sends := fun _ => none
  closeAndRecv := none
  maxAlloc := 2 ^ 48
  read_le := by
    intro k n
    match k with
    | 0 => simp [demoReads]
    | 1 => simp [demoReads]
    | _ + 2 => simp [demoReads]
  maxAlloc_lt := by decide

/-- Two targets: the client of `T` cannot be created, the session on `U`
succeeds. -/
def demoWorld : World where
  CreateGrpcClient := fun t => if t.Address = "T" then some (.other "dial T: refused") else none
  FilePut := fun _ => ("sr.cfg", none)

/-- A configuration after `PreRunEFilePut`: chunks of 1 KB, permission unset. -/
def demoCfg : Config := ⟨"sr.cfg", "", 1, 0, "SHA256"⟩

/-- A configuration that `PreRunEFilePut` leaves as it is, with the write size
`10^16`: a buffer of `10^19` bytes, which is below `2^64` and does not fit
`int`. -/
def hugeCfg : Config := ⟨"sr.cfg", "", 10 ^ 16, 0, "SHA256"⟩

/-- The demonstration session with the second send failing. -/
def demoEnvSendFails : Env :=
  { demoEnv with sends := fun k => if k = 1 then some (.other "stream: broken pipe") else none }

/-- The demonstration session with the second read failing. -/
def demoEnvReadFails : Env where
  stat := .ok ⟨false, 0o640⟩
  openErr := none
  putErr := none
  reads := fun k n => if k = 1 then ⟨[], some (.other "read: input/output error")⟩
    else demoReads k n
  sends := fun _ => none
  closeAndRecv := none
  maxAlloc := 2 ^ 48
  read_le := by
    intro k n
    by_cases hk : k = 1
    · simp [hk]
    · simp only [if_neg hk]
      exact demoEnv.read_le k n
  maxAlloc_lt := by decide


/-! ## `PreRunEFilePut`: the hash method and the chunk size -/

/-- C5: with a non-empty `--file`, `PreRunEFilePut` returns no error and leaves
the hash method equal to the upper-cased identifier when that is one of `MD5`,
`SHA256`, `SHA512`, and equal to `MD5` otherwise; so the method it leaves is
always one of the three names. -/
theorem C5_hash_method_normalised (ToUpper : String → String) (cfg : Config)
    (hfile : cfg.FilePutFile ≠ "") :
    ∃ cfg', PreRunEFilePut ToUpper cfg = .ok cfg' ∧
      cfg'.FilePutHashMethod =
        (if ToUpper cfg.FilePutHashMethod = "MD5" ∨ ToUpper cfg.FilePutHashMethod = "SHA256"
            ∨ ToUpper cfg.FilePutHashMethod = "SHA512"
          then ToUpper cfg.FilePutHashMethod else "MD5") ∧
      (cfg'.FilePutHashMethod = "MD5" ∨ cfg'.FilePutHashMethod = "SHA256"
        ∨ cfg'.FilePutHashMethod = "SHA512") := by
  unfold PreRunEFilePut
  rw [if_neg hfile]
  refine ⟨_, rfl, ?_, ?_⟩
  · by_cases h : ToUpper cfg.FilePutHashMethod = "MD5" ∨
        ToUpper cfg.FilePutHashMethod = "SHA256" ∨ ToUpper cfg.FilePutHashMethod = "SHA512"
    · by_cases hw : cfg.FilePutWriteSize = 0 <;> simp [h, hw]
    · by_cases hw : cfg.FilePutWriteSize = 0 <;> simp [h, hw]
  · by_cases h : ToUpper cfg.FilePutHashMethod = "MD5" ∨
        ToUpper cfg.FilePutHashMethod = "SHA256" ∨ ToUpper cfg.FilePutHashMethod = "SHA512"
    · by_cases hw : cfg.FilePutWriteSize = 0 <;> simp [h, hw]
    · by_cases hw : cfg.FilePutWriteSize = 0 <;> simp [h, hw]

/-- C5 at the lower-case identifier `sha256`, which is matched, and at the
unknown identifier `crc32`, which becomes `MD5`. -/
theorem C5_hash_method_normalised_witness :
    (∃ cfg', PreRunEFilePut asciiUpper ⟨"sr.cfg", "", 0, 0, "sha256"⟩ = .ok cfg' ∧
      cfg'.FilePutHashMethod =
        (if asciiUpper "sha256" = "MD5" ∨ asciiUpper "sha256" = "SHA256"
            ∨ asciiUpper "sha256" = "SHA512"
          then asciiUpper "sha256" else "MD5") ∧
      (cfg'.FilePutHashMethod = "MD5" ∨ cfg'.FilePutHashMethod = "SHA256"
        ∨ cfg'.FilePutHashMethod = "SHA512")) ∧
    PreRunEFilePut asciiUpper ⟨"sr.cfg", "", 0, 0, "sha256"⟩
      = .ok ⟨"sr.cfg", "", 64, 0, "SHA256"⟩ ∧
    PreRunEFilePut asciiUpper ⟨"sr.cfg", "", 8, 0, "crc32"⟩
      = .ok ⟨"sr.cfg", "", 8, 0, "MD5"⟩ :=
  ⟨C5_hash_method_normalised asciiUpper ⟨"sr.cfg", "", 0, 0, "sha256"⟩ (by decide),
    by rfl, by rfl⟩

/-- The write size `PreRunEFilePut` leaves: 64 for 0, the given one otherwise. -/
theorem PreRunEFilePut_writeSize (ToUpper : String → String) (cfg cfg' : Config)
    (h : PreRunEFilePut ToUpper cfg = .ok cfg') :
    cfg'.FilePutWriteSize = if cfg.FilePutWriteSize = 0 then 64 else cfg.FilePutWriteSize := by
  unfold PreRunEFilePut at h
  by_cases hfile : cfg.FilePutFile = ""
  · simp [hfile] at h
  · rw [if_neg hfile] at h
    injection h with h
    subst h
    by_cases hw : cfg.FilePutWriteSize = 0 <;>
      by_cases hm : ToUpper cfg.FilePutHashMethod = "MD5" ∨
        ToUpper cfg.FilePutHashMethod = "SHA256" ∨ ToUpper cfg.FilePutHashMethod = "SHA512" <;>
      simp [hw, hm]

/-- C9 fails as stated: for the write size `2^61`, a `uint64` that
`PreRunEFilePut` accepts unchanged, the product `FilePutWriteSize*1000` wraps
to 0, so the buffer length is neither `2^61 * 1000` nor positive. -/
theorem C9_wraps_to_zero :
    (2 : Nat) ^ 61 < uint64Size ∧
    PreRunEFilePut asciiUpper ⟨"sr.cfg", "", 2 ^ 61, 0, "MD5"⟩
      = .ok ⟨"sr.cfg", "", 2 ^ 61, 0, "MD5"⟩ ∧
    bufLen ⟨"sr.cfg", "", 2 ^ 61, 0, "MD5"⟩ = 0 ∧
    ¬ (bufLen ⟨"sr.cfg", "", 2 ^ 61, 0, "MD5"⟩ = 2 ^ 61 * 1000 ∧
        0 < bufLen ⟨"sr.cfg", "", 2 ^ 61, 0, "MD5"⟩) := by
  refine ⟨by decide, by rfl, by decide, ?_⟩
  intro h
  exact absurd h.2 (by decide)

/-- C9, amended: when the write size `PreRunEFilePut` leaves, times 1000, is
below `2^64`, the buffer length is that product exactly and is positive; the
write size it leaves is 64 for 0 and the given one otherwise. -/
theorem C9_chunk_size_scaled (ToUpper : String → String) (cfg cfg' : Config)
    (hpre : PreRunEFilePut ToUpper cfg = .ok cfg')
    (hfit : cfg'.FilePutWriteSize * 1000 < uint64Size) :
    cfg'.FilePutWriteSize = (if cfg.FilePutWriteSize = 0 then 64 else cfg.FilePutWriteSize) ∧
    bufLen cfg' = cfg'.FilePutWriteSize * 1000 ∧ 0 < bufLen cfg' := by
  have hw := PreRunEFilePut_writeSize ToUpper cfg cfg' hpre
  have hpos : 0 < cfg'.FilePutWriteSize := by
    rw [hw]
    by_cases h0 : cfg.FilePutWriteSize = 0
    · simp [h0]
    · simp [h0]; omega
  have hb : bufLen cfg' = cfg'.FilePutWriteSize * 1000 := by
    unfold bufLen
    exact Nat.mod_eq_of_lt hfit
  exact ⟨hw, hb, by omega⟩

/-- C9 amended, at the default: a write size of 0 becomes 64 KB, a buffer of
64000 bytes. -/
theorem C9_chunk_size_scaled_witness :
    (⟨"sr.cfg", "", 64, 0, "MD5"⟩ : Config).FilePutWriteSize
        = (if (⟨"sr.cfg", "", 0, 0, "md5"⟩ : Config).FilePutWriteSize = 0 then 64
            else (⟨"sr.cfg", "", 0, 0, "md5"⟩ : Config).FilePutWriteSize) ∧
      bufLen ⟨"sr.cfg", "", 64, 0, "MD5"⟩
        = (⟨"sr.cfg", "", 64, 0, "MD5"⟩ : Config).FilePutWriteSize * 1000 ∧
      0 < bufLen ⟨"sr.cfg", "", 64, 0, "MD5"⟩ :=
  C9_chunk_size_scaled asciiUpper ⟨"sr.cfg", "", 0, 0, "md5"⟩ ⟨"sr.cfg", "", 64, 0, "MD5"⟩
    (by rfl) (by decide)

/-! ## `RunEFilePut`: the report -/

/-- The loop of lines 98-105 appends the errors of the failed responses to
`errs` and the successful responses to `result`, both in order. -/
theorem partitionResponses_eq (responses : List filePutResponse)
    (errs : List Err) (result : List filePutResponse) :
    partitionResponses responses (errs, result) =
      (errs ++ responses.filterMap (fun rsp => rsp.err),
        result ++ responses.filter (fun rsp => decide (rsp.err = none))) := by
  induction responses generalizing errs result with
  | nil => simp [partitionResponses]
  | cons rsp rest ih =>
    cases h : rsp.err with
    | none => simp [partitionResponses, h, ih]
    | some e => simp [partitionResponses, h, ih]

/-- The failed and the successful responses of a list are as many as the
list. -/
theorem filterMap_err_length_add (responses : List filePutResponse) :
    (responses.filterMap (fun rsp => rsp.err)).length
      + (responses.filter (fun rsp => decide (rsp.err = none))).length = responses.length := by
  induction responses with
  | nil => rfl
  | cons rsp rest ih =>
    cases h : rsp.err with
    | none => simp [h]; omega
    | some e => simp [h]; omega

/-- The errors collected are as many as the responses with a non-nil error. -/
theorem filterMap_err_length (responses : List filePutResponse) :
    (responses.filterMap (fun rsp => rsp.err)).length
      = responses.countP (fun rsp => decide (rsp.err ≠ none)) := by
  induction responses with
  | nil => rfl
  | cons rsp rest ih =>
    cases h : rsp.err with
    | none => simp [h]; simpa using ih
    | some e => simp [h]; simpa using ih

/-- C6: the report of `RunEFilePut` puts the error of every response with a
non-nil error in `errs` and every other response in `result`, each response in
exactly one of the two; it returns a non-nil error if and only if some response
has a non-nil error, and that error reads `there was k errors` with `k` the
number of responses with a non-nil error. -/
theorem C6_report_partition (responses : List filePutResponse) :
    (reportResults responses).errs = responses.filterMap (fun rsp => rsp.err) ∧
    (reportResults responses).result = responses.filter (fun rsp => decide (rsp.err = none)) ∧
    (reportResults responses).errs.length + (reportResults responses).result.length
      = responses.length ∧
    (reportResults responses).errs.length
      = responses.countP (fun rsp => decide (rsp.err ≠ none)) ∧
    ((reportResults responses).ret ≠ none ↔ ∃ rsp ∈ responses, rsp.err ≠ none) ∧
    ((reportResults responses).ret ≠ none →
      (reportResults responses).ret = some (.other ("there was "
        ++ toString (responses.countP (fun rsp => decide (rsp.err ≠ none))) ++ " errors"))) := by
  have hp := partitionResponses_eq responses [] []
  simp only [List.nil_append] at hp
  have hlen := filterMap_err_length responses
  have he : (reportResults responses).errs = responses.filterMap (fun rsp => rsp.err) := by
    simp [reportResults, hp]
  have hr : (reportResults responses).result
      = responses.filter (fun rsp => decide (rsp.err = none)) := by
    simp [reportResults, hp]
  have hret : (reportResults responses).ret =
      if (responses.filterMap (fun rsp => rsp.err)).length > 0 then
        some (.other ("there was "
          ++ toString (responses.filterMap (fun rsp => rsp.err)).length ++ " errors"))
      else none := by
    simp [reportResults, hp]
  have hpos : responses.countP (fun rsp => decide (rsp.err ≠ none)) > 0 ↔
      ∃ rsp ∈ responses, rsp.err ≠ none := by
    rw [gt_iff_lt, List.countP_pos_iff]
    simp
  refine ⟨he, hr, ?_, ?_, ?_, ?_⟩
  · rw [he, hr]; exact filterMap_err_length_add responses
  · rw [he]; exact hlen
  · rw [hret, hlen]
    by_cases hk : responses.countP (fun rsp => decide (rsp.err ≠ none)) > 0
    · rw [if_pos hk]
      exact ⟨fun _ => hpos.mp hk, fun _ => Option.some_ne_none _⟩
    · rw [if_neg hk]
      exact ⟨fun h => absurd rfl h, fun h => absurd (hpos.mpr h) hk⟩
  · intro h
    rw [hret, hlen] at h ⊢
    by_cases hk : responses.countP (fun rsp => decide (rsp.err ≠ none)) > 0
    · rw [if_pos hk]
    · rw [if_neg hk] at h
      exact absurd rfl h


/-! ## The permission of the open message -/

/-- The digit loop of `ParseUint` reads an octal digit written by `FormatUint` as its value. -/
theorem digitVal_octDigit (d : Nat) (h : d < 8) : digitVal (octDigit d) = some d := by
  interval_cases d <;> rfl

/-- One iteration of the digit loop of `ParseUint` on an octal digit that does
not overflow. -/
theorem parseUintLoop8_cons (n d : Nat) (cs : List Char) (hd : d < 8)
    (hn : n * 8 + d < uint64Size) :
    parseUintLoop8 n (octDigit d :: cs) = parseUintLoop8 (n * 8 + d) cs := by
  have h64 : uint64Size = 18446744073709551616 := by decide
  rw [parseUintLoop8, digitVal_octDigit d hd]
  have h1 : ¬ d ≥ 8 := by omega
  have h2 : ¬ n ≥ (uint64Size - 1) / 8 + 1 := by rw [h64]; omega
  have h3 : (n * 8) % uint64Size = n * 8 := Nat.mod_eq_of_lt (by omega)
  have h4 : (n * 8 + d) % uint64Size = n * 8 + d := Nat.mod_eq_of_lt hn
  simp only [h1, h2, if_false, h3, h4]
  have h5 : ¬ (n * 8 + d < n * 8 ∨ n * 8 + d > uint64Size - 1) := by omega
  rw [if_neg h5]

/-- The digit loop of `ParseUint` reads back what `FormatUint` wrote: parsing the digits of `u`
from 0 continues as from the value `u`. -/
theorem parseUintLoop8_formatBits8 (fuel : Nat) :
    ∀ (u : Nat) (acc : List Char), u < 8 ^ fuel → u < uint64Size →
      parseUintLoop8 0 (formatBits8 fuel u acc) = parseUintLoop8 u acc := by
  induction fuel with
  | zero =>
    intro u acc hu _
    have : u = 0 := by simpa using hu
    subst this
    rfl
  | succ fuel ih =>
    intro u acc hu h64
    by_cases h8 : u ≥ 8
    · have hdiv : u / 8 < 8 ^ fuel := by
        apply Nat.div_lt_of_lt_mul
        rw [Nat.pow_succ] at hu
        omega
      have hdiv64 : u / 8 < uint64Size := by
        have := Nat.div_le_self u 8
        omega
      rw [formatBits8, if_pos h8, ih (u / 8) _ hdiv hdiv64,
        parseUintLoop8_cons (u / 8) (u % 8) acc (Nat.mod_lt u (by decide)) (by omega)]
      congr 1
      omega
    · rw [formatBits8, if_neg h8]
      have := parseUintLoop8_cons 0 u acc (by omega) (by omega)
      simpa using this

/-- The octal round trip of lines 148-154 never fails and gives the
permission back, for every `uint32` permission value. -/
theorem resolvePermissions_unset (p : Nat) (hp : p < uint32Size) :
    resolvePermissions 0 p = .ok p := by
  have h32 : uint32Size = 4294967296 := by decide
  have h64 : uint64Size = 18446744073709551616 := by decide
  have hfmt : parseUintLoop8 0 (formatBits8 64 p []) = .ok p := by
    rw [parseUintLoop8_formatBits8 64 p [] (by rw [h32] at hp; omega) (by omega)]
    rfl
  have hdata : ("0" ++ FormatUint8 p).data = octDigit 0 :: formatBits8 64 p [] := by
    rw [String.data_append]
    rfl
  have hparse : ParseInt8 ("0" ++ FormatUint8 p) = .ok (p : Int) := by
    unfold ParseInt8
    rw [hdata]
    have hc1 : ¬ (octDigit 0 = '+' ∨ octDigit 0 = '-') := by decide
    have hc2 : decide (octDigit 0 = '-') = false := by decide
    simp only [hc1, hc2, if_false]
    have hu : ParseUint8 (octDigit 0 :: formatBits8 64 p []) = .ok p := by
      unfold ParseUint8
      rw [if_neg (List.cons_ne_nil _ _),
        parseUintLoop8_cons 0 0 _ (by decide) (by decide)]
      simpa using hfmt
    rw [hu]
    have hlt : p < 9223372036854775808 := by omega
    simp [hlt]
  unfold resolvePermissions
  simp only [if_true, hparse]
  congr 1
  rw [h32]
  omega


/-! ## The chunk loop -/

/-- The loop leaves the configuration as it is. -/
theorem chunkLoop_cfg (env : Env) (cfg : Config) (fuel : Nat) :
    ∀ (i : Nat) (h : Option HashObj) (sent : List PutRequest),
      (chunkLoop env cfg fuel i h sent).cfg = cfg := by
  induction fuel with
  | zero => intro i h sent; rfl
  | succ fuel ih =>
    intro i h sent
    unfold chunkLoop
    split
    · rfl
    · simp only []
      split
      · rfl
      · split
        · unfold sendHash
          cases h with
          | none => rfl
          | some o => simp only []; split <;> rfl
        · cases h with
          | none => rfl
          | some o =>
            simp only []
            split
            · rfl
            · exact ih _ _ _

/-- With a nil `hash.Hash` the loop sends nothing: it stops at its first
iteration, by the panic of `make`, by a failed read, by the panic of `h.Write`
or `h.Sum`, or for want of fuel. -/
theorem chunkLoop_nil (env : Env) (cfg : Config) (fuel i : Nat) (sent : List PutRequest) :
    (chunkLoop env cfg fuel i none sent).sent = sent ∧
    ((chunkLoop env cfg fuel i none sent).out = .panicked ∨
      (chunkLoop env cfg fuel i none sent).out = .running ∨
      ∃ e, (readAt env cfg i).err = some e ∧ e ≠ .eof ∧
        (chunkLoop env cfg fuel i none sent).out = .returned "" (some e)) := by
  cases fuel with
  | zero => exact ⟨rfl, Or.inr (Or.inl rfl)⟩
  | succ fuel =>
    unfold chunkLoop
    split
    · exact ⟨rfl, Or.inl rfl⟩
    · simp only []
      split
      · rename_i herr
        refine ⟨rfl, Or.inr (Or.inr ?_)⟩
        cases hr : (readAt env cfg i).err with
        | none => exact absurd hr herr.1
        | some e =>
          refine ⟨e, rfl, ?_, rfl⟩
          intro he
          rw [hr, he] at herr
          exact herr.2 rfl
      · split
        · exact ⟨rfl, Or.inl rfl⟩
        · exact ⟨rfl, Or.inl rfl⟩

/-- The tests of lines 184 and 187 both fail exactly at a read with a nil
error and data. -/
theorem readOK_of_continue (r : ReadResult) (h1 : ¬ (r.err ≠ none ∧ r.err ≠ some .eof))
    (h2 : ¬ (r.err = some .eof ∨ r.data.length = 0)) : ReadOK r := by
  constructor
  · by_contra hne
    exact h1 ⟨hne, fun heof => h2 (Or.inl heof)⟩
  · intro hnil
    exact h2 (Or.inr (by simp [hnil]))

/-- The test of line 184 fails and that of line 187 holds exactly at the end
of data. -/
theorem endOfData_of_break (r : ReadResult) (h1 : ¬ (r.err ≠ none ∧ r.err ≠ some .eof))
    (h2 : r.err = some .eof ∨ r.data.length = 0) : EndOfData r := by
  by_cases heof : r.err = some .eof
  · exact Or.inl heof
  · right
    constructor
    · by_contra hne
      exact h1 ⟨hne, heof⟩
    · rcases h2 with h | h
      · exact absurd h heof
      · exact List.length_eq_zero.mp h

/-- Every run of the chunk loop with a non-nil hash stands in one of the six
ways of `LoopResult`. -/
theorem chunkLoop_result (env : Env) (cfg : Config) (fuel : Nat) :
    ∀ (i : Nat) (o : HashObj) (sent : List PutRequest),
      LoopResult env cfg fuel i o sent (chunkLoop env cfg fuel i (some o) sent) := by
  induction fuel with
  | zero =>
    intro i o sent
    exact .running (fun j hj => absurd hj (Nat.not_lt_zero j))
      (fun j hj => absurd hj (Nat.not_lt_zero j)) (by simp [chunkLoop, chunksFrom]) rfl
  | succ fuel ih =>
    intro i o sent
    unfold chunkLoop
    split
    · rename_i hlimit
      exact .allocPanic 0 (fun j hj => absurd hj (Nat.not_lt_zero j))
        (fun j hj => absurd hj (Nat.not_lt_zero j)) hlimit (by simp [chunksFrom]) rfl
    · simp only []
      split
      · rename_i herr
        cases hr : (readAt env cfg i).err with
        | none => exact absurd hr herr.1
        | some e =>
          have hne : e ≠ .eof := by
            intro he
            rw [hr, he] at herr
            exact herr.2 rfl
          exact .readErr 0 e (fun j hj => absurd hj (Nat.not_lt_zero j))
            (fun j hj => absurd hj (Nat.not_lt_zero j)) hr hne (by simp [chunksFrom]) rfl
      · rename_i h1
        split
        · rename_i h2
          have hend := endOfData_of_break _ h1 h2
          unfold sendHash
          simp only []
          split
          · rename_i e hs
            exact .hashErr 0 e (fun j hj => absurd hj (Nat.not_lt_zero j))
              (fun j hj => absurd hj (Nat.not_lt_zero j)) hend hs
              (by simp [chunksFrom, writeAll]) rfl
          · rename_i hs
            refine .finished 0 (fun j hj => absurd hj (Nat.not_lt_zero j)) ?_ hend
              (by simp [chunksFrom, writeAll]) rfl
            intro j hj
            have : j = 0 := by omega
            subst this
            exact hs
        · rename_i h2
          have hok0 := readOK_of_continue _ h1 h2
          split
          · rename_i e hs
            refine .sendErr 0 e ?_ (fun j hj => absurd hj (Nat.not_lt_zero j)) hs
              (by simp [chunksFrom]) rfl
            intro j hj
            have : j = 0 := by omega
            subst this
            exact hok0
          · rename_i hs
            have hshift : ∀ k, sent ++ [PutRequest.Contents (readAt env cfg i).data] ++
                (chunksFrom env cfg (i + 1) k).map .Contents
                  = sent ++ (chunksFrom env cfg i (k + 1)).map .Contents := by
              intro k
              simp [chunksFrom]
            have hokS : ∀ k, (∀ j, j < k → ReadOK (readAt env cfg (i + 1 + j))) →
                ∀ j, j < k + 1 → ReadOK (readAt env cfg (i + j)) := by
              intro k hk j hj
              cases j with
              | zero => exact hok0
              | succ j =>
                have := hk j (by omega)
                rwa [show i + 1 + j = i + (j + 1) by omega] at this
            have hsendsS : ∀ k, (∀ j, j < k → env.sends
                ((sent ++ [PutRequest.Contents (readAt env cfg i).data]).length + j) = none) →
                ∀ j, j < k + 1 → env.sends (sent.length + j) = none := by
              intro k hk j hj
              cases j with
              | zero => exact hs
              | succ j =>
                have := hk j (by omega)
                rwa [show (sent ++ [PutRequest.Contents (readAt env cfg i).data]).length + j
                  = sent.length + (j + 1) by simp; omega] at this
            have hlen : ∀ k, (sent ++ [PutRequest.Contents (readAt env cfg i).data]).length + k
                = sent.length + (k + 1) := by
              intro k; simp; omega
            have hidx : ∀ k, i + 1 + k = i + (k + 1) := by intro k; omega
            have hwrite : ∀ k, writeAll (o.Write (readAt env cfg i).data)
                (chunksFrom env cfg (i + 1) k) = writeAll o (chunksFrom env cfg i (k + 1)) := by
              intro k
              simp [writeAll, chunksFrom]
            cases ih (i + 1) (o.Write (readAt env cfg i).data)
                (sent ++ [PutRequest.Contents (readAt env cfg i).data]) with
            | allocPanic k hok hsends hlimit hsent hout =>
              exact .allocPanic (k + 1) (hokS k hok) (hsendsS k hsends) hlimit
                (by rw [hsent, hshift]) hout
            | running hok hsends hsent hout =>
              exact .running (hokS fuel hok) (hsendsS fuel hsends)
                (by rw [hsent, hshift]) hout
            | readErr k e hok hsends herr hne hsent hout =>
              exact .readErr (k + 1) e (hokS k hok) (hsendsS k hsends)
                (by rw [← hidx]; exact herr) hne (by rw [hsent, hshift]) hout
            | sendErr k e hok hsends hfail hsent hout =>
              exact .sendErr (k + 1) e (hokS (k + 1) hok) (hsendsS k hsends)
                (by rw [← hlen]; exact hfail) (by rw [hsent, hshift]) hout
            | hashErr k e hok hsends hend hfail hsent hout =>
              exact .hashErr (k + 1) e (hokS k hok) (hsendsS k hsends)
                (by rw [← hidx]; exact hend) (by rw [← hlen]; exact hfail)
                (by rw [hsent, hshift, hwrite]) hout
            | finished k hok hsends hend hsent hout =>
              exact .finished (k + 1) (hokS k hok) (hsendsS (k + 1) hsends)
                (by rw [← hidx]; exact hend) (by rw [hsent, hshift, hwrite]) hout


/-! ## `FilePut`: the shape of a run -/

/-- Lines 144-155 leave the write size alone. -/
theorem sessionCfg_writeSize (lib : Lib) (cfg : Config) (perm : Nat) :
    (sessionCfg lib cfg perm).FilePutWriteSize = cfg.FilePutWriteSize := by
  unfold sessionCfg
  split <;> rfl

/-- Lines 144-155 leave the hash method alone. -/
theorem sessionCfg_hashMethod (lib : Lib) (cfg : Config) (perm : Nat) :
    (sessionCfg lib cfg perm).FilePutHashMethod = cfg.FilePutHashMethod := by
  unfold sessionCfg
  split <;> rfl

/-- Lines 144-155 store the resolved permission. -/
theorem sessionCfg_permissions (lib : Lib) (cfg : Config) (perm : Nat) :
    (sessionCfg lib cfg perm).FilePutPermissions = perm := rfl

/-- The reads do not depend on what lines 144-155 change. -/
theorem readAt_sessionCfg (lib : Lib) (env : Env) (cfg : Config) (perm i : Nat) :
    readAt env (sessionCfg lib cfg perm) i = readAt env cfg i := by
  unfold readAt bufLen
  rw [sessionCfg_writeSize]

/-- The chunks do not depend on what lines 144-155 change. -/
theorem chunksFrom_sessionCfg (lib : Lib) (env : Env) (cfg : Config) (perm : Nat) (k : Nat) :
    ∀ i, chunksFrom env (sessionCfg lib cfg perm) i k = chunksFrom env cfg i k := by
  induction k with
  | zero => intro i; rfl
  | succ k ih => intro i; simp [chunksFrom, ih, readAt_sessionCfg]

/-- A run of `FilePut` either fails before the stream is used, with nothing
sent, or it resolves the permission and sends the open message; in the second
case it returns at once when that send fails and enters the chunk loop
otherwise. -/
theorem FilePut_cases (lib : Lib) (env : Env) (cfg : Config) (fuel : Nat) :
    ((FilePut lib env cfg fuel).sent = [] ∧
      ∃ e, (FilePut lib env cfg fuel).out = .returned "" (some e)) ∨
    ∃ fi perm, env.stat = .ok fi ∧ fi.isDir = false ∧ env.openErr = none ∧
      env.putErr = none ∧ resolvePermissions cfg.FilePutPermissions fi.perm = .ok perm ∧
      ((∃ e, env.sends 0 = some e ∧
          FilePut lib env cfg fuel = ⟨sessionCfg lib cfg perm,
            [.Open (sessionCfg lib cfg perm).FilePutRemoteFile perm], .returned "" (some e)⟩) ∨
        (env.sends 0 = none ∧
          FilePut lib env cfg fuel = chunkLoop env (sessionCfg lib cfg perm) fuel 0
            (initHash lib cfg.FilePutHashMethod)
            [.Open (sessionCfg lib cfg perm).FilePutRemoteFile perm])) := by
  unfold FilePut
  cases hstat : env.stat with
  | error e => exact Or.inl ⟨rfl, e, rfl⟩
  | ok fi =>
    cases hdir : fi.isDir with
    | true =>
      exact Or.inl ⟨by simp [hdir],
        .other "file put direcotries is not supported... yet", by simp [hdir]⟩
    | false =>
      cases hopen : env.openErr with
      | some e => exact Or.inl ⟨by simp [hdir], e, by simp [hdir]⟩
      | none =>
        cases hput : env.putErr with
        | some e => exact Or.inl ⟨by simp [hdir], e, by simp [hdir]⟩
        | none =>
          cases hperm : resolvePermissions cfg.FilePutPermissions fi.perm with
          | error e =>
            left
            by_cases hn : cfg.FilePutRemoteFile = "" <;> simp [hdir, hn, hperm]
          | ok perm =>
            right
            refine ⟨fi, perm, rfl, hdir, rfl, rfl, hperm, ?_⟩
            cases hs : env.sends 0 with
            | some e =>
              left
              refine ⟨e, rfl, ?_⟩
              by_cases hn : cfg.FilePutRemoteFile = "" <;>
                simp [hdir, hn, hperm, hs, sessionCfg]
            | none =>
              right
              refine ⟨rfl, ?_⟩
              by_cases hn : cfg.FilePutRemoteFile = "" <;>
                simp [hdir, hn, hperm, hs, sessionCfg]


/-- When the local file is a regular file that opens and the stream is
created, `FilePut` resolves the permission, sends the open message, and enters
the chunk loop unless that send fails. -/
theorem FilePut_started (lib : Lib) (env : Env) (cfg : Config) (fuel : Nat)
    (fi : FileInfo) (perm : Nat) (hstat : env.stat = .ok fi) (hdir : fi.isDir = false)
    (hopen : env.openErr = none) (hput : env.putErr = none)
    (hperm : resolvePermissions cfg.FilePutPermissions fi.perm = .ok perm) :
    (∃ e, env.sends 0 = some e ∧
        FilePut lib env cfg fuel = ⟨sessionCfg lib cfg perm,
          [.Open (sessionCfg lib cfg perm).FilePutRemoteFile perm], .returned "" (some e)⟩) ∨
      (env.sends 0 = none ∧
        FilePut lib env cfg fuel = chunkLoop env (sessionCfg lib cfg perm) fuel 0
          (initHash lib cfg.FilePutHashMethod)
          [.Open (sessionCfg lib cfg perm).FilePutRemoteFile perm]) := by
  unfold FilePut
  cases hs : env.sends 0 with
  | some e =>
    left
    refine ⟨e, rfl, ?_⟩
    by_cases hn : cfg.FilePutRemoteFile = "" <;>
      simp [hstat, hopen, hput, hdir, hn, hperm, hs, sessionCfg]
  | none =>
    right
    refine ⟨rfl, ?_⟩
    by_cases hn : cfg.FilePutRemoteFile = "" <;>
      simp [hstat, hopen, hput, hdir, hn, hperm, hs, sessionCfg]

/-- The hash object after a sequence of writes carries the folded state. -/
theorem writeAll_sum (H : Hash) (chunks : List (List Byte)) :
    ∀ st : H.State, (writeAll ⟨H, st⟩ chunks).Sum = H.sum (chunks.foldl H.write st) := by
  induction chunks with
  | nil => intro st; rfl
  | cons c cs ih =>
    intro st
    simp only [writeAll, List.foldl_cons] at ih ⊢
    exact ih (H.write st c)

/-- The sum of a fresh hash after writing chunks is the digest of their
concatenation. -/
theorem writeAll_new_sum (H : Hash) (chunks : List (List Byte)) :
    (writeAll ⟨H, H.new⟩ chunks).Sum = H.digest chunks.flatten := by
  rw [writeAll_sum, H.streaming]
  rfl

/-- The payloads of a concatenation. -/
theorem contentsOf_append (l₁ l₂ : List PutRequest) :
    contentsOf (l₁ ++ l₂) = contentsOf l₁ ++ contentsOf l₂ := by
  simp [contentsOf, List.filterMap_append]

/-- The payloads of a sequence of contents messages are their chunks. -/
theorem contentsOf_map_Contents (cs : List (List Byte)) :
    contentsOf (cs.map .Contents) = cs := by
  induction cs with
  | nil => rfl
  | cons c cs ih =>
    simp only [contentsOf, List.map_cons, List.filterMap_cons] at ih ⊢
    rw [ih]

/-- A chunk of `chunksFrom` is the payload of one of the reads. -/
theorem mem_chunksFrom (env : Env) (cfg : Config) (b : List Byte) (k : Nat) :
    ∀ i, b ∈ chunksFrom env cfg i k → ∃ j, j < k ∧ b = (readAt env cfg (i + j)).data := by
  induction k with
  | zero => intro i h; simp [chunksFrom] at h
  | succ k ih =>
    intro i h
    simp only [chunksFrom, List.mem_cons] at h
    rcases h with h | h
    · exact ⟨0, by omega, by simpa using h⟩
    · obtain ⟨j, hj, hb⟩ := ih (i + 1) h
      exact ⟨j + 1, by omega, by rw [hb]; congr 2; omega⟩

/-- There are as many chunks as reads. -/
theorem chunksFrom_length (env : Env) (cfg : Config) (k : Nat) :
    ∀ i, (chunksFrom env cfg i k).length = k := by
  induction k with
  | zero => intro i; rfl
  | succ k ih => intro i; simp [chunksFrom, ih]

/-- The messages of a run of `FilePut` that sent anything are the open
message, the contents messages of the first `k` reads, all of which succeeded
with data, and at most one hash message after them, which carries the method
value and the sum of the hash the `switch` selected after the writes of those
`k` chunks. -/
theorem FilePut_sent (lib : Lib) (env : Env) (cfg : Config) (fuel : Nat) :
    (FilePut lib env cfg fuel).sent = [] ∨
    ∃ name perm k, (∀ j, j < k → ReadOK (readAt env cfg j)) ∧
      ((FilePut lib env cfg fuel).sent
          = [.Open name perm] ++ (chunksFrom env cfg 0 k).map .Contents ∨
        ∃ H, hashAlg lib cfg.FilePutHashMethod = some H ∧
          EndOfData (readAt env cfg k) ∧
          (FilePut lib env cfg fuel).sent
            = [.Open name perm] ++ (chunksFrom env cfg 0 k).map .Contents ++
              [.Hash (HashType_HashMethod_value cfg.FilePutHashMethod)
                (H.digest (chunksFrom env cfg 0 k).flatten)]) := by
  rcases FilePut_cases lib env cfg fuel with h | ⟨fi, perm, _, _, _, _, _, h⟩
  · exact Or.inl h.1
  · right
    refine ⟨(sessionCfg lib cfg perm).FilePutRemoteFile, perm, ?_⟩
    have hnone : ∀ j, j < 0 → ReadOK (readAt env cfg j) :=
      fun j hj => absurd hj (Nat.not_lt_zero j)
    rcases h with ⟨e, _, h⟩ | ⟨_, h⟩
    · exact ⟨0, hnone, Or.inl (by rw [h]; rfl)⟩
    · rw [h]
      cases hH : hashAlg lib cfg.FilePutHashMethod with
      | none =>
        refine ⟨0, hnone, Or.inl ?_⟩
        simp only [initHash, hH, Option.map_none']
        rw [(chunkLoop_nil _ _ _ _ _).1]
        rfl
      | some H =>
        simp only [initHash, hH, Option.map_some']
        have hres := chunkLoop_result env (sessionCfg lib cfg perm) fuel 0 ⟨H, H.new⟩
          [.Open (sessionCfg lib cfg perm).FilePutRemoteFile perm]
        cases hres with
        | allocPanic k hok hsends hlimit hsent hout =>
          simp only [readAt_sessionCfg, chunksFrom_sessionCfg, Nat.zero_add] at hok hsent
          exact ⟨k, hok, Or.inl hsent⟩
        | running hok hsends hsent hout =>
          simp only [readAt_sessionCfg, chunksFrom_sessionCfg, Nat.zero_add] at hok hsent
          exact ⟨fuel, hok, Or.inl hsent⟩
        | readErr k e hok hsends herr hne hsent hout =>
          simp only [readAt_sessionCfg, chunksFrom_sessionCfg, Nat.zero_add] at hok hsent
          exact ⟨k, hok, Or.inl hsent⟩
        | sendErr k e hok hsends hfail hsent hout =>
          simp only [readAt_sessionCfg, chunksFrom_sessionCfg, Nat.zero_add] at hok hsent
          exact ⟨k + 1, hok, Or.inl hsent⟩
        | hashErr k e hok hsends hend hfail hsent hout =>
          simp only [readAt_sessionCfg, chunksFrom_sessionCfg, Nat.zero_add,
            sessionCfg_hashMethod, writeAll_new_sum] at hok hsent hend
          exact ⟨k, hok, Or.inr ⟨H, rfl, hend, hsent⟩⟩
        | finished k hok hsends hend hsent hout =>
          simp only [readAt_sessionCfg, chunksFrom_sessionCfg, Nat.zero_add,
            sessionCfg_hashMethod, writeAll_new_sum] at hok hsent hend
          exact ⟨k, hok, Or.inr ⟨H, rfl, hend, hsent⟩⟩

/-! ## The digest and the chunks -/

/-- The method value of each of the three method names. -/
theorem hashAlg_cases (lib : Lib) (method : String) (H : Hash)
    (hH : hashAlg lib method = some H) :
    (method = "MD5" ∧ HashType_HashMethod_value method = .MD5 ∧ H = lib.md5) ∨
    (method = "SHA256" ∧ HashType_HashMethod_value method = .SHA256 ∧ H = lib.sha256) ∨
    (method = "SHA512" ∧ HashType_HashMethod_value method = .SHA512 ∧ H = lib.sha512) := by
  unfold hashAlg at hH
  by_cases h1 : method = "MD5"
  · rw [if_pos h1] at hH
    injection hH with hH
    subst h1
    exact Or.inl ⟨rfl, by decide, hH.symm⟩
  · rw [if_neg h1] at hH
    by_cases h2 : method = "SHA256"
    · rw [if_pos h2] at hH
      injection hH with hH
      subst h2
      exact Or.inr (Or.inl ⟨rfl, by decide, hH.symm⟩)
    · rw [if_neg h2] at hH
      by_cases h3 : method = "SHA512"
      · rw [if_pos h3] at hH
        injection hH with hH
        subst h3
        exact Or.inr (Or.inr ⟨rfl, by decide, hH.symm⟩)
      · rw [if_neg h3] at hH
        exact absurd hH (by simp)

/-- C1: in every run of `FilePut` whose hash method selects a hash function
(`MD5`, `SHA256` or `SHA512`), a hash message that is sent carries that
function applied to the concatenation, in send order, of the payloads of the
contents messages of the run, and the method value of the configured method:
`MD5` with the MD5 function, `SHA256` with SHA-256, `SHA512` with SHA-512. -/
theorem C1_digest_covers_sent (lib : Lib) (env : Env) (cfg : Config) (fuel : Nat)
    (H : Hash) (hH : hashAlg lib cfg.FilePutHashMethod = some H)
    (m : HashMethod) (d : List Byte)
    (hd : PutRequest.Hash m d ∈ (FilePut lib env cfg fuel).sent) :
    d = H.digest (contentsOf (FilePut lib env cfg fuel).sent).flatten ∧
      m = HashType_HashMethod_value cfg.FilePutHashMethod ∧
      ((cfg.FilePutHashMethod = "MD5" ∧ m = .MD5 ∧ H = lib.md5) ∨
        (cfg.FilePutHashMethod = "SHA256" ∧ m = .SHA256 ∧ H = lib.sha256) ∨
        (cfg.FilePutHashMethod = "SHA512" ∧ m = .SHA512 ∧ H = lib.sha512)) := by
  have key : d = H.digest (contentsOf (FilePut lib env cfg fuel).sent).flatten ∧
      m = HashType_HashMethod_value cfg.FilePutHashMethod := by
    rcases FilePut_sent lib env cfg fuel with h | ⟨name, perm, k, _, h | ⟨H', hH', _, h⟩⟩
    · rw [h] at hd
      exact absurd hd (List.not_mem_nil _)
    · rw [h] at hd
      simp at hd
    · rw [hH] at hH'
      injection hH' with hH'
      subst hH'
      rw [h] at hd ⊢
      simp only [contentsOf_append, contentsOf_map_Contents]
      simp at hd
      simp [contentsOf, hd.1, hd.2]
  refine ⟨key.1, key.2, ?_⟩
  rw [key.2]
  exact hashAlg_cases lib cfg.FilePutHashMethod H hH

/-- C3: every contents message `FilePut` sends carries at least 1 and at most
`W * 1000` bytes, for the write size `W` of the configuration; and when the
first read returns no byte the run has no contents message. -/
theorem C3_chunk_bounds (lib : Lib) (env : Env) (cfg : Config) (fuel : Nat) :
    (∀ b, PutRequest.Contents b ∈ (FilePut lib env cfg fuel).sent →
      1 ≤ b.length ∧ b.length ≤ cfg.FilePutWriteSize * 1000) ∧
    ((readAt env cfg 0).data = [] →
      ∀ b, PutRequest.Contents b ∉ (FilePut lib env cfg fuel).sent) := by
  have key : ∀ b, PutRequest.Contents b ∈ (FilePut lib env cfg fuel).sent →
      ∃ k j, j < k ∧ b = (readAt env cfg j).data ∧ ∀ j, j < k → ReadOK (readAt env cfg j) := by
    intro b hb
    rcases FilePut_sent lib env cfg fuel with h | ⟨name, perm, k, hok, h | ⟨H, _, _, h⟩⟩
    · rw [h] at hb
      exact absurd hb (List.not_mem_nil _)
    · rw [h] at hb
      simp at hb
      obtain ⟨j, hj, hbj⟩ := mem_chunksFrom env cfg b k 0 hb
      exact ⟨k, j, hj, by simpa using hbj, hok⟩
    · rw [h] at hb
      simp at hb
      obtain ⟨j, hj, hbj⟩ := mem_chunksFrom env cfg b k 0 hb
      exact ⟨k, j, hj, by simpa using hbj, hok⟩
  constructor
  · intro b hb
    obtain ⟨k, j, hj, hbj, hok⟩ := key b hb
    constructor
    · have := (hok j hj).2
      rw [hbj]
      exact Nat.one_le_iff_ne_zero.mpr (fun h0 => this (List.length_eq_zero.mp h0))
    · rw [hbj]
      calc (readAt env cfg j).data.length ≤ bufLen cfg := env.read_le j (bufLen cfg)
        _ ≤ cfg.FilePutWriteSize * 1000 := Nat.mod_le _ _
  · intro h0 b hb
    obtain ⟨k, j, hj, _, hok⟩ := key b hb
    exact (hok 0 (by omega)).2 h0


/-- C1 at the five-byte demonstration session: the hash message carries the
toy SHA256 sum, 17, of the two chunks sent. -/
theorem C1_digest_covers_sent_witness :
    PutRequest.Hash .SHA256 [17] ∈ (FilePut toyLib demoEnv demoCfg 10).sent ∧
    ([17] = (toyHash 2).digest (contentsOf (FilePut toyLib demoEnv demoCfg 10).sent).flatten ∧
      HashMethod.SHA256 = HashType_HashMethod_value demoCfg.FilePutHashMethod ∧
      ((demoCfg.FilePutHashMethod = "MD5" ∧ HashMethod.SHA256 = .MD5 ∧ toyHash 2 = toyLib.md5) ∨
        (demoCfg.FilePutHashMethod = "SHA256" ∧ HashMethod.SHA256 = .SHA256
          ∧ toyHash 2 = toyLib.sha256) ∨
        (demoCfg.FilePutHashMethod = "SHA512" ∧ HashMethod.SHA256 = .SHA512
          ∧ toyHash 2 = toyLib.sha512))) :=
  ⟨by decide,
    C1_digest_covers_sent toyLib demoEnv demoCfg 10 (toyHash 2) rfl .SHA256 [17] (by decide)⟩

/-! ## The order of the messages -/

/-- Nothing is sent, and an error is returned with an empty file name, when
`os.Stat` fails, when the path is a directory, or when `os.Open` fails. -/
theorem FilePut_local_failure (lib : Lib) (env : Env) (cfg : Config) (fuel : Nat) :
    (∀ e, env.stat = .error e →
      (FilePut lib env cfg fuel).sent = [] ∧
        (FilePut lib env cfg fuel).out = .returned "" (some e)) ∧
    (∀ fi, env.stat = .ok fi → fi.isDir = true →
      (FilePut lib env cfg fuel).sent = [] ∧
        (FilePut lib env cfg fuel).out
          = .returned "" (some (.other "file put direcotries is not supported... yet"))) ∧
    (∀ fi e, env.stat = .ok fi → fi.isDir = false → env.openErr = some e →
      (FilePut lib env cfg fuel).sent = [] ∧
        (FilePut lib env cfg fuel).out = .returned "" (some e)) := by
  refine ⟨?_, ?_, ?_⟩
  · intro e h
    simp [FilePut, h]
  · intro fi h hd
    simp [FilePut, h, hd]
  · intro fi e h hd ho
    simp [FilePut, h, hd, ho]

/-- C2: in every run of `FilePut` the messages handed to `stream.Send` are an
initial part of: the open message, the contents messages of the reads in read
order, the hash message.  A message whose send fails is the last one and its
error is returned with an empty file name; when the `i`-th read fails, at most
the open message and the contents of the `i` reads before it are sent; and
nothing is sent, an error being returned with an empty file name, when
`os.Stat` or `os.Open` fails or the path is a directory. -/
theorem C2_message_order (lib : Lib) (env : Env) (cfg : Config) (fuel : Nat) :
    (∃ k name perm m d, (FilePut lib env cfg fuel).sent <+:
      [.Open name perm] ++ (chunksFrom env cfg 0 k).map .Contents ++ [.Hash m d]) ∧
    (∀ j e, j < (FilePut lib env cfg fuel).sent.length → env.sends j = some e →
      (FilePut lib env cfg fuel).sent.length = j + 1 ∧
        (FilePut lib env cfg fuel).out = .returned "" (some e)) ∧
    (∀ i e, (readAt env cfg i).err = some e → e ≠ .eof →
      (FilePut lib env cfg fuel).sent.length ≤ i + 1) ∧
    (∀ e, env.stat = .error e →
      (FilePut lib env cfg fuel).sent = [] ∧
        (FilePut lib env cfg fuel).out = .returned "" (some e)) ∧
    (∀ fi, env.stat = .ok fi → fi.isDir = true →
      (FilePut lib env cfg fuel).sent = [] ∧
        (FilePut lib env cfg fuel).out
          = .returned "" (some (.other "file put direcotries is not supported... yet"))) ∧
    (∀ fi e, env.stat = .ok fi → fi.isDir = false → env.openErr = some e →
      (FilePut lib env cfg fuel).sent = [] ∧
        (FilePut lib env cfg fuel).out = .returned "" (some e)) := by
  have hlocal := FilePut_local_failure lib env cfg fuel
  refine ⟨?_, ?_, ?_, hlocal.1, hlocal.2.1, hlocal.2.2⟩
  · -- the shape of the sequence
    rcases FilePut_sent lib env cfg fuel with h | ⟨name, perm, k, _, h | ⟨H, _, _, h⟩⟩
    · rw [h]
      exact ⟨0, "", 0, .UNSPECIFIED, [], ⟨_, rfl⟩⟩
    · rw [h]
      exact ⟨k, name, perm, .UNSPECIFIED, [], ⟨_, rfl⟩⟩
    · rw [h]
      exact ⟨k, name, perm, _, _, ⟨[], List.append_nil _⟩⟩
  · -- a failed send is the last one
    intro j e hj hse
    rcases FilePut_cases lib env cfg fuel with h | ⟨fi, perm, _, _, _, _, _, h⟩
    · rw [h.1] at hj
      exact absurd hj (Nat.not_lt_zero j)
    · rcases h with ⟨e', hs0, h⟩ | ⟨hs0, h⟩
      · rw [h] at hj ⊢
        have hj0 : j = 0 := by simpa using hj
        subst hj0
        rw [hs0] at hse
        injection hse with hse
        subst hse
        exact ⟨rfl, rfl⟩
      · rw [h] at hj ⊢
        cases hH : hashAlg lib cfg.FilePutHashMethod with
        | none =>
          simp only [initHash, hH, Option.map_none'] at hj ⊢
          rw [(chunkLoop_nil _ _ _ _ _).1] at hj
          have hj0 : j = 0 := by simpa using hj
          subst hj0
          rw [hs0] at hse
          exact absurd hse (by simp)
        | some H =>
          simp only [initHash, hH, Option.map_some'] at hj ⊢
          have hres := chunkLoop_result env (sessionCfg lib cfg perm) fuel 0 ⟨H, H.new⟩
            [.Open (sessionCfg lib cfg perm).FilePutRemoteFile perm]
          have hcontra : ∀ k, (∀ j, j < k → env.sends
              ([PutRequest.Open (sessionCfg lib cfg perm).FilePutRemoteFile perm].length + j)
                = none) → j < 1 + k → False := by
            intro k hk hjk
            cases j with
            | zero => rw [hs0] at hse; exact absurd hse (by simp)
            | succ j =>
              have := hk j (by omega)
              rw [show [PutRequest.Open (sessionCfg lib cfg perm).FilePutRemoteFile perm].length
                + j = j + 1 by simp; omega] at this
              rw [this] at hse
              exact absurd hse (by simp)
          cases hres with
          | allocPanic k hok hsends hlimit hsent hout =>
            rw [hsent] at hj
            simp [chunksFrom_length] at hj
            exact absurd (hcontra k hsends (by omega)) id
          | running hok hsends hsent hout =>
            rw [hsent] at hj
            simp [chunksFrom_length] at hj
            exact absurd (hcontra fuel hsends (by omega)) id
          | readErr k e' hok hsends herr hne hsent hout =>
            rw [hsent] at hj
            simp [chunksFrom_length] at hj
            exact absurd (hcontra k hsends (by omega)) id
          | sendErr k e' hok hsends hfail hsent hout =>
            rw [hsent] at hj ⊢
            simp [chunksFrom_length] at hj ⊢
            by_cases hjk : j < 1 + k
            · exact absurd (hcontra k hsends hjk) id
            · have hjeq : j = 1 + k := by omega
              subst hjeq
              simp only [List.length_singleton] at hfail
              rw [hfail] at hse
              injection hse with hse
              subst hse
              exact ⟨by omega, hout⟩
          | hashErr k e' hok hsends hend hfail hsent hout =>
            rw [hsent] at hj ⊢
            simp [chunksFrom_length] at hj ⊢
            by_cases hjk : j < 1 + k
            · exact absurd (hcontra k hsends hjk) id
            · have hjeq : j = 1 + k := by omega
              subst hjeq
              simp only [List.length_singleton] at hfail
              rw [hfail] at hse
              injection hse with hse
              subst hse
              exact ⟨by omega, hout⟩
          | finished k hok hsends hend hsent hout =>
            rw [hsent] at hj
            simp [chunksFrom_length] at hj
            exact absurd (hcontra (k + 1) hsends (by omega)) id
  · -- nothing after a failed read
    intro i e hre hne
    have hnotok : ∀ k, (∀ j, j < k → ReadOK (readAt env cfg j)) → k ≤ i := by
      intro k hk
      by_contra hlt
      have := (hk i (by omega)).1
      rw [this] at hre
      exact absurd hre (by simp)
    rcases FilePut_sent lib env cfg fuel with h | ⟨name, perm, k, hok, h | ⟨H, _, hend, h⟩⟩
    · rw [h]; simp
    · rw [h]
      simp [chunksFrom_length]
      have := hnotok k hok
      omega
    · rw [h]
      simp [chunksFrom_length]
      have hki := hnotok k hok
      have hne' : k ≠ i := by
        intro hk
        subst hk
        rcases hend with hend | hend
        · rw [hend] at hre
          injection hre with hre
          exact hne hre.symm
        · rw [hend.1] at hre
          exact absurd hre (by simp)
      omega


/-- The loop only appends to the messages sent. -/
theorem chunkLoop_sent_append (env : Env) (cfg : Config) (fuel i : Nat)
    (h : Option HashObj) (sent : List PutRequest) :
    ∃ rest, (chunkLoop env cfg fuel i h sent).sent = sent ++ rest := by
  cases h with
  | none => exact ⟨[], by rw [(chunkLoop_nil _ _ _ _ _).1, List.append_nil]⟩
  | some o =>
    cases chunkLoop_result env cfg fuel i o sent with
    | allocPanic k hok hsends hlimit hsent hout => exact ⟨_, hsent⟩
    | running hok hsends hsent hout => exact ⟨_, hsent⟩
    | readErr k e hok hsends herr hne hsent hout => exact ⟨_, hsent⟩
    | sendErr k e hok hsends hfail hsent hout => exact ⟨_, hsent⟩
    | hashErr k e hok hsends hend hfail hsent hout =>
      exact ⟨_, by rw [hsent, List.append_assoc]⟩
    | finished k hok hsends hend hsent hout =>
      exact ⟨_, by rw [hsent, List.append_assoc]⟩

/-- C4: for a regular local file of permission `p ≤ 0o777` that opens, with
the stream created: the octal round trip of an unset (zero) configured
permission does not fail and gives `p`; a non-zero configured permission
resolves to itself; and the first message `FilePut` sends is the open message
carrying `p` in the first case and the configured permission in the second. -/
theorem C4_open_permissions (lib : Lib) (env : Env) (cfg : Config) (fuel p : Nat)
    (hp : p ≤ 0o777) (hstat : env.stat = .ok ⟨false, p⟩)
    (hopen : env.openErr = none) (hput : env.putErr = none) :
    resolvePermissions 0 p = .ok p ∧
    (∀ c, c ≠ 0 → resolvePermissions c p = .ok c) ∧
    ∃ name, (FilePut lib env cfg fuel).sent.head? = some (.Open name
      (if cfg.FilePutPermissions = 0 then p else cfg.FilePutPermissions)) := by
  have h0 : resolvePermissions 0 p = .ok p :=
    resolvePermissions_unset p (by
      have : uint32Size = 4294967296 := by decide
      omega)
  have hc : ∀ c, c ≠ 0 → resolvePermissions c p = .ok c := by
    intro c hc
    simp [resolvePermissions, hc]
  refine ⟨h0, hc, ?_⟩
  have hperm : resolvePermissions cfg.FilePutPermissions p
      = .ok (if cfg.FilePutPermissions = 0 then p else cfg.FilePutPermissions) := by
    by_cases hz : cfg.FilePutPermissions = 0
    · rw [hz, if_pos rfl]; exact h0
    · rw [if_neg hz]; exact hc _ hz
  rcases FilePut_started lib env cfg fuel ⟨false, p⟩ _ hstat rfl hopen hput hperm with
    ⟨e, _, h⟩ | ⟨_, h⟩
  · exact ⟨_, by rw [h]; rfl⟩
  · obtain ⟨rest, hrest⟩ := chunkLoop_sent_append env
      (sessionCfg lib cfg (if cfg.FilePutPermissions = 0 then p else cfg.FilePutPermissions))
      fuel 0 (initHash lib cfg.FilePutHashMethod)
      [.Open (sessionCfg lib cfg
        (if cfg.FilePutPermissions = 0 then p else cfg.FilePutPermissions)).FilePutRemoteFile
        (if cfg.FilePutPermissions = 0 then p else cfg.FilePutPermissions)]
    exact ⟨_, by rw [h, hrest]; rfl⟩

/-- C4 at a local file of mode 0640 with the permission unset: the open
message carries 0640, which is 416. -/
theorem C4_open_permissions_witness :
    resolvePermissions 0 0o640 = .ok 416 ∧
    (∀ c, c ≠ 0 → resolvePermissions c 0o640 = .ok c) ∧
    ∃ name, (FilePut toyLib demoEnv demoCfg 10).sent.head? = some (.Open name
      (if demoCfg.FilePutPermissions = 0 then 0o640 else demoCfg.FilePutPermissions)) :=
  C4_open_permissions toyLib demoEnv demoCfg 10 0o640 (by decide) rfl rfl rfl

/-! ## The whole file -/

/-- The chunks of `k + 1` reads are those of `k` reads and the last one. -/
theorem chunksFrom_succ_last (env : Env) (cfg : Config) (k : Nat) :
    ∀ i, chunksFrom env cfg i (k + 1)
      = chunksFrom env cfg i k ++ [(readAt env cfg (i + k)).data] := by
  induction k with
  | zero => intro i; simp [chunksFrom]
  | succ k ih =>
    intro i
    rw [chunksFrom, ih (i + 1)]
    simp only [chunksFrom, List.cons_append]
    rw [show i + 1 + k = i + (k + 1) by omega]

/-- A successful read of a file is a read of bytes of the file at the current
offset. -/
theorem ReadsFile.of_readOK {F : List Byte} {c : Nat} {reads : Nat → ReadResult}
    (hF : ReadsFile F c reads) {i : Nat} (hok : ReadOK (reads i)) :
    readPos reads i < F.length ∧
      (reads i).data = (F.drop (readPos reads i)).take (reads i).data.length := by
  have h := hF i
  by_cases hlt : readPos reads i < F.length
  · rw [if_pos hlt] at h
    exact ⟨hlt, h.2.2.2⟩
  · rw [if_neg hlt] at h
    exact absurd (by rw [h]) hok.2

/-- At the end of data the whole file has been read. -/
theorem ReadsFile.of_endOfData {F : List Byte} {c : Nat} {reads : Nat → ReadResult}
    (hF : ReadsFile F c reads) {i : Nat} (hend : EndOfData (reads i)) :
    F.length ≤ readPos reads i := by
  have h := hF i
  by_contra hlt
  rw [if_pos (by omega)] at h
  rcases hend with hend | hend
  · rw [h.1] at hend
    exact absurd hend (by simp)
  · have := h.2.1
    rw [hend.2] at this
    simp at this

/-- After `k` successful reads of a file, the chunks read are the first
`readPos k` bytes of the file, and at least `k` bytes. -/
theorem ReadsFile.chunks {F : List Byte} {env : Env} {cfg : Config}
    (hF : ReadsFile F (bufLen cfg) (readAt env cfg)) (k : Nat) :
    (∀ j, j < k → ReadOK (readAt env cfg j)) →
      (chunksFrom env cfg 0 k).flatten = F.take (readPos (readAt env cfg) k) ∧
      readPos (readAt env cfg) k ≤ F.length ∧ k ≤ readPos (readAt env cfg) k := by
  induction k with
  | zero => intro _; simp [chunksFrom, readPos]
  | succ k ih =>
    intro hok
    obtain ⟨ih1, ih2, ih3⟩ := ih (fun j hj => hok j (by omega))
    have hk := hok k (by omega)
    obtain ⟨hlt, hdata⟩ := hF.of_readOK hk
    have hlen : (readAt env cfg k).data.length ≤ F.length - readPos (readAt env cfg) k := by
      have := congrArg List.length hdata
      rw [List.length_take, List.length_drop] at this
      omega
    have hpos : 1 ≤ (readAt env cfg k).data.length :=
      Nat.one_le_iff_ne_zero.mpr (fun h0 => hk.2 (List.length_eq_zero.mp h0))
    refine ⟨?_, ?_, ?_⟩
    · rw [chunksFrom_succ_last, List.flatten_append, ih1, readPos, List.take_add]
      simp only [Nat.zero_add, List.flatten_cons, List.flatten_nil, List.append_nil]
      rw [← hdata]
    · rw [readPos]; omega
    · rw [readPos]; omega


/-- The buffer length does not depend on what lines 144-155 change. -/
theorem bufLen_sessionCfg (lib : Lib) (cfg : Config) (perm : Nat) :
    bufLen (sessionCfg lib cfg perm) = bufLen cfg := by
  unfold bufLen
  rw [sessionCfg_writeSize]

/-- When the buffer length is above the allocation limit the loop panics at
its first iteration, having sent nothing more. -/
theorem chunkLoop_alloc_panic (env : Env) (cfg : Config) (fuel i : Nat)
    (h : Option HashObj) (sent : List PutRequest) (hlimit : bufLen cfg > env.maxAlloc) :
    chunkLoop env cfg (fuel + 1) i h sent = ⟨cfg, sent, .panicked⟩ := by
  unfold chunkLoop
  rw [if_pos hlimit]

/-- When the buffer length is above the allocation limit, no run of `FilePut`
sends a contents message or a hash message, and none returns without an
error. -/
theorem FilePut_alloc_panic (lib : Lib) (env : Env) (cfg : Config) (fuel : Nat)
    (hlimit : bufLen cfg > env.maxAlloc) :
    contentsOf (FilePut lib env cfg fuel).sent = [] ∧
    (∀ m d, PutRequest.Hash m d ∉ (FilePut lib env cfg fuel).sent) ∧
    (∀ name, (FilePut lib env cfg fuel).out ≠ .returned name none) := by
  rcases FilePut_cases lib env cfg fuel with h | ⟨fi, perm, _, _, _, _, _, h⟩
  · obtain ⟨e, he⟩ := h.2
    rw [h.1, he]
    exact ⟨rfl, fun m d => List.not_mem_nil _, fun name => by simp⟩
  · rcases h with ⟨e, _, h⟩ | ⟨_, h⟩
    · rw [h]
      exact ⟨rfl, fun m d => by simp, fun name => by simp⟩
    · rw [h]
      cases fuel with
      | zero => exact ⟨rfl, fun m d => by simp [chunkLoop], fun name => by simp [chunkLoop]⟩
      | succ fuel =>
        rw [chunkLoop_alloc_panic env _ fuel 0 _ _ (by rw [bufLen_sessionCfg]; exact hlimit)]
        exact ⟨rfl, fun m d => by simp, fun name => by simp⟩

/-- C10, amended: when the buffer length is within the allocation limit, the
reads are those of a regular file of content `F` (a nil error and between 1
and `min c remaining` bytes while data remains, then `(0, io.EOF)`), every
send succeeds, and the session starts with one of the three hash methods, then
with more than `|F|` iterations of fuel `FilePut` returns the result of
`CloseAndRecv` with the remote file name, having sent the open message,
contents messages whose payloads are non-empty and concatenate to `F`, and the
hash message carrying the digest of `F`; for an empty `F` it sends no contents
message. -/
theorem C10_whole_file (lib : Lib) (env : Env) (cfg : Config) (fuel : Nat)
    (F : List Byte) (H : Hash) (fi : FileInfo)
    (hstat : env.stat = .ok fi) (hdir : fi.isDir = false) (hmode : fi.perm ≤ 0o777)
    (hopen : env.openErr = none) (hput : env.putErr = none)
    (hH : hashAlg lib cfg.FilePutHashMethod = some H)
    (halloc : bufLen cfg ≤ env.maxAlloc)
    (hreads : ReadsFile F (bufLen cfg) (readAt env cfg))
    (hsends : ∀ j, env.sends j = none)
    (hfuel : F.length < fuel) :
    ∃ name perm chunks,
      (FilePut lib env cfg fuel).sent = [.Open name perm] ++ chunks.map .Contents ++
        [.Hash (HashType_HashMethod_value cfg.FilePutHashMethod) (H.digest F)] ∧
      (FilePut lib env cfg fuel).out = .returned name env.closeAndRecv ∧
      chunks.flatten = F ∧ (∀ c ∈ chunks, c ≠ []) ∧
      (contentsOf (FilePut lib env cfg fuel).sent).flatten = F ∧
      (F = [] → chunks = []) := by
  have hperm : ∃ perm, resolvePermissions cfg.FilePutPermissions fi.perm = .ok perm := by
    by_cases hz : cfg.FilePutPermissions = 0
    · rw [hz]
      exact ⟨_, resolvePermissions_unset fi.perm (by
        have : uint32Size = 4294967296 := by decide
        omega)⟩
    · exact ⟨cfg.FilePutPermissions, by simp [resolvePermissions, hz]⟩
  obtain ⟨perm, hperm⟩ := hperm
  rcases FilePut_started lib env cfg fuel fi perm hstat hdir hopen hput hperm with
    ⟨e, hs0, _⟩ | ⟨_, h⟩
  · rw [hsends 0] at hs0
    exact absurd hs0 (by simp)
  · rw [h]
    simp only [initHash, hH, Option.map_some']
    have hres := chunkLoop_result env (sessionCfg lib cfg perm) fuel 0 ⟨H, H.new⟩
      [.Open (sessionCfg lib cfg perm).FilePutRemoteFile perm]
    cases hres with
    | allocPanic k hok hsends' hlimit hsent hout =>
      rw [bufLen_sessionCfg] at hlimit
      omega
    | running hok hsends' hsent hout =>
      simp only [readAt_sessionCfg, Nat.zero_add] at hok
      obtain ⟨_, h2, h3⟩ := hreads.chunks fuel hok
      omega
    | readErr k e hok hsends' herr hne hsent hout =>
      simp only [readAt_sessionCfg, Nat.zero_add] at herr
      have hk := hreads k
      by_cases hlt : readPos (readAt env cfg) k < F.length
      · rw [if_pos hlt] at hk
        rw [hk.1] at herr
        exact absurd herr (by simp)
      · rw [if_neg hlt] at hk
        rw [hk] at herr
        injection herr with herr
        exact absurd herr.symm hne
    | sendErr k e hok hsends' hfail hsent hout =>
      rw [hsends] at hfail
      exact absurd hfail (by simp)
    | hashErr k e hok hsends' hend hfail hsent hout =>
      rw [hsends] at hfail
      exact absurd hfail (by simp)
    | finished k hok hsends' hend hsent hout =>
      simp only [readAt_sessionCfg, chunksFrom_sessionCfg, Nat.zero_add,
        sessionCfg_hashMethod, writeAll_new_sum] at hok hsent hend
      obtain ⟨h1, h2, _⟩ := hreads.chunks k hok
      have hall : (chunksFrom env cfg 0 k).flatten = F := by
        rw [h1]
        exact List.take_of_length_le (hreads.of_endOfData hend)
      have hne : ∀ c ∈ chunksFrom env cfg 0 k, c ≠ [] := by
        intro c hc
        obtain ⟨j, hj, hcj⟩ := mem_chunksFrom env cfg c k 0 hc
        rw [hcj, Nat.zero_add]
        exact (hok j hj).2
      refine ⟨(sessionCfg lib cfg perm).FilePutRemoteFile, perm, chunksFrom env cfg 0 k,
        ?_, hout, hall, hne, ?_, ?_⟩
      · rw [hsent, hall]
      · rw [hsent]
        simp only [contentsOf_append, contentsOf_map_Contents]
        simp [contentsOf, hall]
      · intro hF
        cases hck : chunksFrom env cfg 0 k with
        | nil => rfl
        | cons c cs =>
          have hc : c ≠ [] := hne c (by rw [hck]; exact List.mem_cons_self _ _)
          rw [hck, hF] at hall
          simp at hall
          exact absurd hall.1 hc

/-- The first two demonstration reads into a buffer of at least three bytes. -/
theorem demo_readAt (cfg : Config) (h : 3 ≤ bufLen cfg) :
    readAt demoEnv cfg 0 = ⟨[1, 2], none⟩ ∧ readAt demoEnv cfg 1 = ⟨[3, 4, 5], none⟩ := by
  constructor
  · show (⟨List.take (bufLen cfg) [1, 2], none⟩ : ReadResult) = _
    rw [List.take_of_length_le (by simp; omega)]
  · show (⟨List.take (bufLen cfg) [3, 4, 5], none⟩ : ReadResult) = _
    rw [List.take_of_length_le (by simp; omega)]

/-- The demonstration reads have consumed the five bytes after two reads. -/
theorem demo_readPos (cfg : Config) (h : 3 ≤ bufLen cfg) (n : Nat) :
    readPos (readAt demoEnv cfg) (n + 2) = 5 := by
  induction n with
  | zero =>
    simp only [readPos, (demo_readAt cfg h).1, (demo_readAt cfg h).2]
    rfl
  | succ n ih =>
    rw [readPos, ih]
    rfl

/-- The demonstration reads are reads of the file `1 2 3 4 5`, through every
buffer of at least three bytes. -/
theorem demo_readsFile (cfg : Config) (h : 3 ≤ bufLen cfg) :
    ReadsFile [1, 2, 3, 4, 5] (bufLen cfg) (readAt demoEnv cfg) := by
  intro i
  match i with
  | 0 =>
    have hpos : readPos (readAt demoEnv cfg) 0 = 0 := rfl
    rw [hpos, if_pos (by decide), (demo_readAt cfg h).1]
    exact ⟨rfl, by decide, by simp only [List.length_cons, List.length_nil]; omega, by decide⟩
  | 1 =>
    have hpos : readPos (readAt demoEnv cfg) 1 = 2 := by
      simp only [readPos, (demo_readAt cfg h).1]
      rfl
    rw [hpos, if_pos (by decide), (demo_readAt cfg h).2]
    exact ⟨rfl, by decide, by simp only [List.length_cons, List.length_nil]; omega, by decide⟩
  | n + 2 =>
    rw [demo_readPos cfg h, if_neg (by decide)]
    rfl

/-- C10 fails as stated: the write size `10^16`, which `PreRunEFilePut`
accepts, gives the positive chunk size `10^19`; the reads of the five-byte
file through that buffer are as the claim asks and every send succeeds, yet
`FilePut` panics at the `make` of line 182 after the open message, and that on
every platform and for every number of iterations: no contents message and no
hash message is sent and no run returns without an error. -/
theorem C10_alloc_panics :
    PreRunEFilePut asciiUpper hugeCfg = .ok hugeCfg ∧
    bufLen hugeCfg = 10 ^ 19 ∧ 0 < bufLen hugeCfg ∧
    ReadsFile [1, 2, 3, 4, 5] (bufLen hugeCfg) (readAt demoEnv hugeCfg) ∧
    (∀ j, demoEnv.sends j = none) ∧
    hashAlg toyLib hugeCfg.FilePutHashMethod = some (toyHash 2) ∧
    FilePut toyLib demoEnv hugeCfg 6 =
      ⟨⟨"sr.cfg", "sr.cfg", 10 ^ 16, 416, "SHA256"⟩, [.Open "sr.cfg" 416], .panicked⟩ ∧
    (∀ (lib : Lib) (env : Env) (fuel : Nat),
      contentsOf (FilePut lib env hugeCfg fuel).sent = [] ∧
      (∀ m d, PutRequest.Hash m d ∉ (FilePut lib env hugeCfg fuel).sent) ∧
      (∀ name, (FilePut lib env hugeCfg fuel).out ≠ .returned name none)) := by
  have hbuf : bufLen hugeCfg = 10 ^ 19 := by decide
  refine ⟨by rfl, hbuf, by decide, demo_readsFile hugeCfg (by decide), fun _ => rfl, rfl,
    by decide, ?_⟩
  intro lib env fuel
  apply FilePut_alloc_panic
  have := env.maxAlloc_lt
  rw [hbuf]
  omega

/-- C10 at the five-byte demonstration session, read as two bytes then three:
the run sends open, two contents messages and the hash, and returns. -/
theorem C10_whole_file_witness :
    (∃ name perm chunks,
      (FilePut toyLib demoEnv demoCfg 6).sent = [.Open name perm] ++ chunks.map .Contents ++
        [.Hash (HashType_HashMethod_value demoCfg.FilePutHashMethod)
          ((toyHash 2).digest [1, 2, 3, 4, 5])] ∧
      (FilePut toyLib demoEnv demoCfg 6).out = .returned name demoEnv.closeAndRecv ∧
      chunks.flatten = [1, 2, 3, 4, 5] ∧ (∀ c ∈ chunks, c ≠ []) ∧
      (contentsOf (FilePut toyLib demoEnv demoCfg 6).sent).flatten = [1, 2, 3, 4, 5] ∧
      (([1, 2, 3, 4, 5] : List Byte) = [] → chunks = [])) ∧
    FilePut toyLib demoEnv demoCfg 6 =
      ⟨⟨"sr.cfg", "sr.cfg", 1, 416, "SHA256"⟩,
        [.Open "sr.cfg" 416, .Contents [1, 2], .Contents [3, 4, 5], .Hash .SHA256 [17]],
        .returned "sr.cfg" none⟩ :=
  ⟨C10_whole_file toyLib demoEnv demoCfg 6 [1, 2, 3, 4, 5] (toyHash 2) ⟨false, 0o640⟩
      rfl rfl (by decide) rfl rfl rfl (by decide) (demo_readsFile demoCfg (by decide))
      (fun _ => rfl) (by decide),
    by decide⟩


/-! ## `RunEFilePut`: the goroutines -/

/-- Replacing the program point of a goroutine that is not done changes the
names of the done goroutines by that goroutine's address, when it becomes
done, and not at all otherwise. -/
theorem doneNames_set (gs : List Goroutine) :
    ∀ (g : Nat) (gr : Goroutine) (pc : PC), gs[g]? = some gr → gr.pc ≠ .done →
      List.Perm (doneNames (gs.set g ⟨gr.t, pc⟩))
        (if pc = .done then gr.t.Address :: doneNames gs else doneNames gs) := by
  induction gs with
  | nil => intro g gr pc h; simp at h
  | cons a rest ih =>
    intro g gr pc hget hnd
    cases g with
    | zero =>
      simp only [List.getElem?_cons_zero, Option.some.injEq] at hget
      subst hget
      by_cases hpc : pc = .done
      · simp [doneNames, List.filter_cons, hpc, hnd]
      · simp [doneNames, List.filter_cons, hpc, hnd]
    | succ g =>
      simp only [List.getElem?_cons_succ] at hget
      have h := ih g gr pc hget hnd
      by_cases ha : a.pc = .done
      · by_cases hpc : pc = .done
        · simp only [hpc, if_true] at h ⊢
          simp only [doneNames, List.set_cons_succ, List.filter_cons, ha, decide_True,
            if_true, List.map_cons] at h ⊢
          exact (List.Perm.cons _ h).trans (List.Perm.swap _ _ _)
        · simp only [hpc, if_false] at h ⊢
          simp only [doneNames, List.set_cons_succ, List.filter_cons, ha, decide_True,
            if_true, List.map_cons] at h ⊢
          exact List.Perm.cons _ h
      · simpa [doneNames, List.filter_cons, ha] using h

/-- Replacing the program point of a goroutine keeps the targets. -/
theorem map_t_set (gs : List Goroutine) :
    ∀ (g : Nat) (gr : Goroutine) (pc : PC), gs[g]? = some gr →
      (gs.set g ⟨gr.t, pc⟩).map (fun x => x.t) = gs.map (fun x => x.t) := by
  induction gs with
  | nil => intro g gr pc h; simp at h
  | cons a rest ih =>
    intro g gr pc hget
    cases g with
    | zero =>
      simp only [List.getElem?_cons_zero, Option.some.injEq] at hget
      subst hget
      simp
    | succ g =>
      simp only [List.getElem?_cons_succ] at hget
      simp [ih g gr pc hget]

/-- The invariant holds when the goroutines are spawned. -/
theorem Inv_spawn (targets : List Target) : Inv targets (spawn targets) := by
  constructor
  · simp [spawn, Function.comp_def]
  · have : doneNames (targets.map fun t => (⟨t, .create⟩ : Goroutine)) = [] := by
      induction targets with
      | nil => rfl
      | cons t ts ih => simp [doneNames, List.filter_cons]
    simp [spawn, this]

/-- Every step of every goroutine keeps the invariant. -/
theorem Inv_step (w : World) (targets : List Target) (s : Shared) (g : Nat)
    (h : Inv targets s) : Inv targets (step w s g) := by
  unfold step
  cases hget : s.gs[g]? with
  | none => exact h
  | some gr =>
    simp only []
    cases hpc : gr.pc with
    | create =>
      refine ⟨by simpa [map_t_set s.gs g gr _ hget] using h.1, ?_⟩
      have := doneNames_set s.gs g gr .check hget (by rw [hpc]; decide)
      simp only [if_neg (show PC.check ≠ PC.done by decide)] at this
      exact h.2.trans this.symm
    | check =>
      refine ⟨by simpa [map_t_set s.gs g gr _ hget] using h.1, ?_⟩
      have := doneNames_set s.gs g gr (if s.err ≠ none then .respondErr else .filePut) hget
        (by rw [hpc]; decide)
      have hne : (if s.err ≠ none then PC.respondErr else PC.filePut) ≠ PC.done := by
        split <;> decide
      simp only [if_neg hne] at this
      exact h.2.trans this.symm
    | respondErr =>
      refine ⟨by simpa [map_t_set s.gs g gr _ hget] using h.1, ?_⟩
      have := doneNames_set s.gs g gr .done hget (by rw [hpc]; decide)
      simp only [if_true] at this
      simp only [List.map_append, List.map_cons, List.map_nil]
      exact (List.perm_append_singleton _ _).trans ((List.Perm.cons _ h.2).trans this.symm)
    | filePut =>
      refine ⟨by simpa [map_t_set s.gs g gr _ hget] using h.1, ?_⟩
      have := doneNames_set s.gs g gr .done hget (by rw [hpc]; decide)
      simp only [if_true] at this
      simp only [List.map_append, List.map_cons, List.map_nil]
      exact (List.perm_append_singleton _ _).trans ((List.Perm.cons _ h.2).trans this.symm)
    | done => exact h

/-- Every schedule keeps the invariant. -/
theorem Inv_runSchedule (w : World) (targets : List Target) (schedule : List Nat) :
    ∀ s, Inv targets s → Inv targets (runSchedule w s schedule) := by
  induction schedule with
  | nil => intro s h; exact h
  | cons g rest ih =>
    intro s h
    exact ih _ (Inv_step w targets s g h)

/-- A step of goroutine `g` takes one off the steps left to `g` and leaves the
others' alone. -/
theorem stepsLeftAt_step (w : World) (s : Shared) (g i : Nat) :
    stepsLeftAt (step w s g) i
      = (stepsLeftAt s i).map fun n => if i = g then n - 1 else n := by
  unfold step stepsLeftAt
  cases hget : s.gs[g]? with
  | none =>
    by_cases hi : i = g
    · subst hi; simp [hget]
    · simp [hi, Function.comp_def]
  | some gr =>
    by_cases hi : i = g
    · subst hi
      cases hpc : gr.pc with
      | create => simp [List.getElem?_set_self', hget, hpc, PC.stepsLeft]
      | check =>
        by_cases he : s.err = none <;>
          simp [List.getElem?_set_self', hget, hpc, PC.stepsLeft, he]
      | respondErr => simp [List.getElem?_set_self', hget, hpc, PC.stepsLeft]
      | filePut => simp [List.getElem?_set_self', hget, hpc, PC.stepsLeft]
      | done => simp [hget, hpc, PC.stepsLeft]
    · have hne : g ≠ i := fun h => hi h.symm
      cases hpc : gr.pc with
      | create => simp [hpc, List.getElem?_set_ne hne, hi, Function.comp_def]
      | check => simp [hpc, List.getElem?_set_ne hne, hi, Function.comp_def]
      | respondErr => simp [hpc, List.getElem?_set_ne hne, hi, Function.comp_def]
      | filePut => simp [hpc, List.getElem?_set_ne hne, hi, Function.comp_def]
      | done => simp [hpc, hi, Function.comp_def]

/-- A schedule takes off the steps left to a goroutine as many as it schedules
that goroutine. -/
theorem stepsLeftAt_runSchedule (w : World) (schedule : List Nat) (i : Nat) :
    ∀ s, stepsLeftAt (runSchedule w s schedule) i
      = (stepsLeftAt s i).map fun n => n - schedule.count i := by
  induction schedule with
  | nil => intro s; simp [runSchedule]
  | cons g rest ih =>
    intro s
    have h := ih (step w s g)
    simp only [runSchedule, List.foldl_cons] at h ⊢
    rw [h, stepsLeftAt_step, Option.map_map]
    congr 1
    funext n
    by_cases hi : i = g
    · subst hi
      simp only [Function.comp, if_true, List.count_cons_self]
      omega
    · have hne : g ≠ i := fun h => hi h.symm
      simp [Function.comp, hi, List.count_cons_of_ne hne]

/-- A spawned goroutine has three steps to take. -/
theorem stepsLeftAt_spawn (targets : List Target) (i : Nat) :
    stepsLeftAt (spawn targets) i = if i < targets.length then some 3 else none := by
  unfold stepsLeftAt spawn
  by_cases hi : i < targets.length
  · simp [hi, List.getElem?_eq_getElem, PC.stepsLeft]
  · simp [hi, List.getElem?_eq_none (Nat.le_of_not_lt hi)]

/-- Every schedule that gives each goroutine three steps passes the barrier of
line 93. -/
theorem allDone_of_fair (w : World) (targets : List Target) (schedule : List Nat)
    (hfair : ∀ i, i < targets.length → 3 ≤ schedule.count i) :
    allDone (runSchedule w (spawn targets) schedule) = true := by
  unfold allDone
  rw [List.all_eq_true]
  intro gr hmem
  obtain ⟨i, hi⟩ := List.mem_iff_getElem?.mp hmem
  have h := stepsLeftAt_runSchedule w schedule i (spawn targets)
  rw [stepsLeftAt_spawn] at h
  unfold stepsLeftAt at h
  rw [hi] at h
  by_cases hlt : i < targets.length
  · rw [if_pos hlt] at h
    simp only [Option.map_some', Option.some.injEq] at h
    have h0 : gr.pc.stepsLeft = 0 := by
      have := hfair i hlt
      omega
    cases hpc : gr.pc <;> simp [hpc, PC.stepsLeft] at h0 ⊢
  · rw [if_neg hlt] at h
    simp at h

/-- C7: under every schedule of the goroutines of `RunEFilePut`, the responses
written so far are exactly one for each goroutine that is done, under the
address of its own target; so once all are done (the barrier of line 93) the
responses are as many as the targets and their target names are the targets'
addresses, whatever `CreateGrpcClient` and `FilePut` returned.  The barrier is
passed under every schedule that gives each goroutine three steps. -/
theorem C7_one_response_per_target (w : World) (targets : List Target) (schedule : List Nat) :
    List.Perm ((runSchedule w (spawn targets) schedule).responseChan.map fun r => r.targetName)
      (doneNames (runSchedule w (spawn targets) schedule).gs) ∧
    (allDone (runSchedule w (spawn targets) schedule) = true →
      (runSchedule w (spawn targets) schedule).responseChan.length = targets.length ∧
      List.Perm
        ((runSchedule w (spawn targets) schedule).responseChan.map fun r => r.targetName)
        (targets.map fun t => t.Address)) ∧
    ((∀ i, i < targets.length → 3 ≤ schedule.count i) →
      allDone (runSchedule w (spawn targets) schedule) = true) := by
  obtain ⟨h1, h2⟩ := Inv_runSchedule w targets schedule _ (Inv_spawn targets)
  refine ⟨h2, ?_, allDone_of_fair w targets schedule⟩
  intro hdone
  have hall : doneNames (runSchedule w (spawn targets) schedule).gs
      = targets.map fun t => t.Address := by
    unfold doneNames
    rw [List.filter_eq_self.mpr (by simpa [allDone] using hdone)]
    have := congrArg (List.map fun t : Target => t.Address) h1
    rw [List.map_map] at this
    exact this
  rw [hall] at h2
  refine ⟨?_, h2⟩
  have := h2.length_eq
  simpa using this

/-- Once the targets are resolved and every goroutine is done, `RunEFilePut`
returns the verdict of the report on the responses written. -/
theorem RunEFilePut_report (w : World) (targets : List Target) (schedule : List Nat)
    (hdone : allDone (runSchedule w (spawn targets) schedule) = true) :
    RunEFilePut w (.ok targets) schedule
      = some (reportResults (runSchedule w (spawn targets) schedule).responseChan).ret := by
  simp [RunEFilePut, hdone]

/-- C8 fails on the code: with two targets, `T` whose client cannot be created
and `U` whose session succeeds, the schedule in which `U` assigns the shared
`err` (nil), then `T` assigns it (its error), then `U` tests it, makes `U`
report the error of `T` without ever calling `FilePut`, and `RunEFilePut`
counts 2 errors; under the schedule that runs `T` and then `U` the responses
are those the claim states and the count is 1. -/
theorem C8_shared_err_race :
    demoWorld.CreateGrpcClient ⟨"T"⟩ = some (.other "dial T: refused") ∧
    demoWorld.CreateGrpcClient ⟨"U"⟩ = none ∧
    demoWorld.FilePut ⟨"U"⟩ = ("sr.cfg", none) ∧
    (runSchedule demoWorld (spawn [⟨"T"⟩, ⟨"U"⟩]) [1, 0, 1, 1, 0, 0]).responseChan
      = [⟨"U", "", some (.other "dial T: refused")⟩,
          ⟨"T", "", some (.other "dial T: refused")⟩] ∧
    RunEFilePut demoWorld (.ok [⟨"T"⟩, ⟨"U"⟩]) [1, 0, 1, 1, 0, 0]
      = some (some (.other "there was 2 errors")) ∧
    (runSchedule demoWorld (spawn [⟨"T"⟩, ⟨"U"⟩]) [0, 0, 0, 1, 1, 1]).responseChan
      = [⟨"T", "", some (.other "dial T: refused")⟩, ⟨"U", "sr.cfg", none⟩] ∧
    RunEFilePut demoWorld (.ok [⟨"T"⟩, ⟨"U"⟩]) [0, 0, 0, 1, 1, 1]
      = some (some (.other "there was 1 errors")) := by
  refine ⟨by decide, by decide, by decide, by decide, by decide, by decide, by decide⟩


/-! ## Concrete runs -/

/-- A failed send of the first contents message ends the run: nothing follows
it and its error is returned with an empty name. -/
theorem demo_send_failure :
    FilePut toyLib demoEnvSendFails demoCfg 6 =
      ⟨⟨"sr.cfg", "sr.cfg", 1, 416, "SHA256"⟩,
        [.Open "sr.cfg" 416, .Contents [1, 2]],
        .returned "" (some (.other "stream: broken pipe"))⟩ := by
  decide

/-- A failed second read ends the run after the first contents message: no
further contents and no hash message. -/
theorem demo_read_failure :
    FilePut toyLib demoEnvReadFails demoCfg 6 =
      ⟨⟨"sr.cfg", "sr.cfg", 1, 416, "SHA256"⟩,
        [.Open "sr.cfg" 416, .Contents [1, 2]],
        .returned "" (some (.other "read: input/output error"))⟩ := by
  decide

/-- A directory is refused before anything is sent. -/
theorem demo_directory :
    FilePut toyLib { demoEnv with stat := .ok ⟨true, 0o755⟩ } demoCfg 6 =
      ⟨demoCfg, [], .returned "" (some (.other "file put direcotries is not supported... yet"))⟩ := by
  decide

/-- A method name that `PreRunEFilePut` would have replaced leaves the hash
nil, and the first `h.Write` panics after the open message. -/
theorem demo_nil_hash :
    FilePut toyLib demoEnv { demoCfg with FilePutHashMethod := "crc32" } 6 =
      ⟨⟨"sr.cfg", "sr.cfg", 1, 416, "crc32"⟩, [.Open "sr.cfg" 416], .panicked⟩ := by
  decide

/-- With the write size `2^61` the buffer has length 0, the first read returns
no byte, and the run sends the hash of the empty input for a five-byte file. -/
theorem demo_wrapped_write_size :
    FilePut toyLib demoEnv { demoCfg with FilePutWriteSize := 2 ^ 61 } 6 =
      ⟨⟨"sr.cfg", "sr.cfg", 2 ^ 61, 416, "SHA256"⟩,
        [.Open "sr.cfg" 416, .Hash .SHA256 ((toyHash 2).digest [])],
        .returned "sr.cfg" none⟩ := by
  decide

end Gnoic
